import Mathlib

/-!
# Verification of the BoltPage rendering core

Shallow embedding, over `List Char`, of the string-processing and state
management code of the BoltPage repository:

* `markrust-core/src/lib.rs`: `is_safe_href`, `is_safe_img_src`,
  `sanitize_generated_html`, the event-rewriting loop of
  `parse_markdown_with_theme`, and `get_syntax_theme_css`;
* `src-tauri/src/lib.rs`: `escape_html`, the document-kind dispatch of
  `render_file_to_html`, `invalidate_cache_for_path`, and the
  `start_file_watcher` / `stop_file_watcher` subscription machinery.

Rust `&str` values are modelled as `List Char`; the byte-based substring
searches of the source only ever search for ASCII patterns, for which
byte positions and character positions in UTF-8 coincide.
-/

namespace BoltPage

/-! ## Basic scanning primitives -/

/-- First index at which character `c` occurs in `s` (Rust `str::find(char)`). -/
def findChar (c : Char) : List Char → Option Nat
  | [] => none
  | a :: t => if a = c then some 0 else (findChar c t).map (· + 1)

/-- `pat` occurs in `s` at index `i` (the `pat.length` characters of `s`
starting at `i` are exactly `pat`). -/
def patAt (pat s : List Char) (i : Nat) : Prop :=
  (s.drop i).take pat.length = pat

instance (pat s : List Char) (i : Nat) : Decidable (patAt pat s i) := by
  unfold patAt; infer_instance

/-- `pat` occurs nowhere in `s`. -/
def NoOcc (pat s : List Char) : Prop :=
  ∀ i, ¬ patAt pat s i

/-- First index at which the pattern `pat` occurs in `s`
(Rust `str::find(&str)`). -/
def findPat (pat : List Char) : List Char → Option Nat
  | [] => if pat = [] then some 0 else none
  | a :: t => if (a :: t).take pat.length = pat then some 0
      else (findPat pat (t)).map (· + 1)

theorem findChar_eq_some {c : Char} {s : List Char} {i : Nat}
    (h : findChar c s = some i) :
    (s.drop i).head? = some c ∧ ∀ j < i, ¬ (s.drop j).head? = some c := by
  induction s generalizing i with
  | nil => simp [findChar] at h
  | cons a t ih =>
    by_cases hc : a = c
    · simp [findChar, hc] at h
      subst h; subst hc
      constructor
      · simp
      · intro j hj; omega
    · simp [findChar, hc] at h
      obtain ⟨i', hi', rfl⟩ := h
      obtain ⟨h1, h2⟩ := ih hi'
      constructor
      · simpa using h1
      · intro j hj
        cases j with
        | zero => simpa using hc
        | succ j' =>
          have := h2 j' (by omega)
          simpa using this

theorem findChar_eq_none {c : Char} {s : List Char}
    (h : findChar c s = none) : ∀ j, ¬ (s.drop j).head? = some c := by
  induction s with
  | nil => intro j; simp
  | cons a t ih =>
    by_cases hc : a = c
    · simp [findChar, hc] at h
    · simp [findChar, hc] at h
      intro j
      cases j with
      | zero => simpa using hc
      | succ j' => simpa using ih h j'

theorem findPat_eq_some {pat s : List Char} {i : Nat}
    (h : findPat pat s = some i) :
    patAt pat s i ∧ ∀ j < i, ¬ patAt pat s j := by
  induction s generalizing i with
  | nil =>
    unfold findPat at h
    by_cases hp : pat = ([] : List Char)
    · simp [hp] at h
      subst hp; subst h
      exact ⟨by simp [patAt], by intro j hj; omega⟩
    · simp [hp] at h
  | cons a t ih =>
    unfold findPat at h
    by_cases hp : (a :: t).take pat.length = pat
    · simp [hp] at h
      subst h
      exact ⟨by simpa [patAt] using hp, by intro j hj; omega⟩
    · simp [hp] at h
      obtain ⟨i', hi', rfl⟩ := h
      obtain ⟨h1, h2⟩ := ih hi'
      refine ⟨by simpa [patAt] using h1, ?_⟩
      intro j hj
      cases j with
      | zero => simpa [patAt] using hp
      | succ j' =>
        have := h2 j' (by omega)
        simpa [patAt] using this

theorem findPat_eq_none {pat s : List Char}
    (h : findPat pat s = none) : ∀ j, ¬ patAt pat s j := by
  induction s with
  | nil =>
    unfold findPat at h
    by_cases hp : pat = ([] : List Char)
    · simp [hp] at h
    · intro j
      unfold patAt
      simp only [List.drop_nil, List.take_nil]
      exact fun hc => hp hc.symm
  | cons a t ih =>
    unfold findPat at h
    by_cases hp : (a :: t).take pat.length = pat
    · simp [hp] at h
    · simp [hp] at h
      intro j
      cases j with
      | zero => simpa [patAt] using hp
      | succ j' => simpa [patAt] using ih h j'

theorem findPat_complete {pat s : List Char} {i : Nat}
    (h : patAt pat s i) : ∃ j, j ≤ i ∧ findPat pat s = some j := by
  cases hf : findPat pat s with
  | none => exact absurd h (findPat_eq_none hf i)
  | some j =>
    obtain ⟨h1, h2⟩ := findPat_eq_some hf
    refine ⟨j, ?_, rfl⟩
    by_contra hij
    exact h2 i (by omega) h

theorem patAt_length {pat s : List Char} {i : Nat} (h : patAt pat s i)
    (hne : pat ≠ []) : i + pat.length ≤ s.length := by
  unfold patAt at h
  have hlen := congrArg List.length h
  rw [List.length_take, List.length_drop] at hlen
  have hpos : 0 < pat.length := List.length_pos.mpr hne
  omega

theorem patAt_decomp {pat s : List Char} {i : Nat} (h : patAt pat s i) :
    s = s.take i ++ pat ++ s.drop (i + pat.length) := by
  conv_lhs => rw [← List.take_append_drop i s]
  rw [List.append_assoc]
  congr 1
  conv_lhs => rw [← List.take_append_drop pat.length (s.drop i)]
  unfold patAt at h
  rw [h, List.drop_drop, Nat.add_comm]

/-! ## `markrust-core`: URL safety checks (`is_safe_href`, `is_safe_img_src`) -/

/-- Rust `str::trim` (both ends; the source only ever meets ASCII whitespace,
for which `Char.isWhitespace` agrees with Rust `char::is_whitespace`). -/
def rustTrim (s : List Char) : List Char :=
  ((s.dropWhile Char.isWhitespace).reverse.dropWhile Char.isWhitespace).reverse

/-- Rust `str::to_lowercase` (ASCII case mapping; the schemes compared
against are ASCII). -/
def rustLower (s : List Char) : List Char := s.map Char.toLower

/-- Rust `str::starts_with`. -/
def strStarts (pat s : List Char) : Bool := s.take pat.length = pat

/-- `is_safe_href` from `markrust-core/src/lib.rs`: after trimming and
lowercasing, the destination must start with `http:`, `https:` or `mailto:`. -/
def is_safe_href (dest : List Char) : Bool :=
  let d := rustLower (rustTrim dest)
  strStarts "http:".toList d || strStarts "https:".toList d ||
    strStarts "mailto:".toList d

/-- `is_safe_img_src` from `markrust-core/src/lib.rs`: `http:`/`https:` pass,
and `data:` URLs pass exactly when the remainder starts with `image/`. -/
def is_safe_img_src (dest : List Char) : Bool :=
  let d := rustLower (rustTrim dest)
  if strStarts "http:".toList d || strStarts "https:".toList d then true
  else if strStarts "data:".toList d then strStarts "image/".toList (d.drop 5)
  else false

/-! ## `markrust-core`: `sanitize_generated_html` -/

/-- The pattern `href="` searched for by `sanitize_generated_html`. -/
def hrefPat : List Char := "href=\"".toList

/-- The pattern `src="` searched for by `sanitize_generated_html`. -/
def srcPat : List Char := "src=\"".toList

/-- The next `href="`/`src="` occurrence scanned for by the loop of
`sanitize_generated_html` (`true` = `href`), with the source's tie-break
`h.0 <= s.0` preferring `href`. -/
def nextAttr (s : List Char) : Option (Nat × Bool) :=
  match findPat hrefPat s, findPat srcPat s with
  | some h, some k => if h ≤ k then some (h, true) else some (k, false)
  | some h, none => some (h, true)
  | none, some k => some (k, false)
  | none, none => none

/-- One fuel-indexed pass of the `loop` in `sanitize_generated_html`
(`markrust-core/src/lib.rs`): copy text up to the next `href="`/`src="`,
keep a safe value, replace an unsafe `href` value by `#` and blank an
unsafe `src` value, then continue after the closing quote; if no closing
quote exists, copy the remainder and stop. The fuel only bounds the
recursion depth; `sanGo_congr` shows any fuel `≥ length` gives the same
result as the Rust loop. -/
def sanGo : Nat → List Char → List Char
  | 0, s => s
  | fuel + 1, s =>
    match nextAttr s with
    | none => s
    | some (idx, kind) =>
      let pat := if kind then hrefPat else srcPat
      let pre := s.take idx
      let rest := s.drop (idx + pat.length)
      match findChar '"' rest with
      | none => pre ++ pat ++ rest
      | some j =>
        let val := rest.take j
        let val2 := if kind then (if is_safe_href val then val else ['#'])
          else (if is_safe_img_src val then val else [])
        pre ++ pat ++ val2 ++ '"' :: sanGo fuel (rest.drop (j + 1))

/-- `sanitize_generated_html` from `markrust-core/src/lib.rs`. -/
def sanitize_generated_html (s : List Char) : List Char := sanGo s.length s

theorem nextAttr_eq_some {s : List Char} {idx : Nat} {kind : Bool}
    (h : nextAttr s = some (idx, kind)) :
    patAt (if kind then hrefPat else srcPat) s idx ∧
      ∀ j < idx, ¬ patAt hrefPat s j ∧ ¬ patAt srcPat s j := by
  unfold nextAttr at h
  cases hh : findPat hrefPat s with
  | none =>
    cases hk : findPat srcPat s with
    | none => simp [hh, hk] at h
    | some k =>
      simp [hh, hk] at h
      obtain ⟨rfl, rfl⟩ := h
      refine ⟨by simpa using (findPat_eq_some hk).1, ?_⟩
      intro j hj
      exact ⟨findPat_eq_none hh j, (findPat_eq_some hk).2 j hj⟩
  | some hidx =>
    cases hk : findPat srcPat s with
    | none =>
      simp [hh, hk] at h
      obtain ⟨rfl, rfl⟩ := h
      refine ⟨by simpa using (findPat_eq_some hh).1, ?_⟩
      intro j hj
      exact ⟨(findPat_eq_some hh).2 j hj, findPat_eq_none hk j⟩
    | some k =>
      simp [hh, hk] at h
      by_cases hle : hidx ≤ k
      · simp [hle] at h
        obtain ⟨rfl, rfl⟩ := h
        refine ⟨by simpa using (findPat_eq_some hh).1, ?_⟩
        intro j hj
        exact ⟨(findPat_eq_some hh).2 j hj,
          (findPat_eq_some hk).2 j (by omega)⟩
      · simp [hle] at h
        obtain ⟨rfl, rfl⟩ := h
        refine ⟨by simpa using (findPat_eq_some hk).1, ?_⟩
        intro j hj
        exact ⟨(findPat_eq_some hh).2 j (by omega),
          (findPat_eq_some hk).2 j hj⟩

theorem nextAttr_eq_none {s : List Char} (h : nextAttr s = none) :
    ∀ j, ¬ patAt hrefPat s j ∧ ¬ patAt srcPat s j := by
  unfold nextAttr at h
  cases hh : findPat hrefPat s with
  | none =>
    cases hk : findPat srcPat s with
    | none => exact fun j => ⟨findPat_eq_none hh j, findPat_eq_none hk j⟩
    | some k => simp [hh, hk] at h
  | some hidx =>
    cases hk : findPat srcPat s <;> simp [hh, hk] at h
    split at h <;> simp at h

theorem hrefPat_ne_nil : hrefPat ≠ [] := by decide

theorem srcPat_ne_nil : srcPat ≠ [] := by decide

theorem nextAttr_some_length {s : List Char} {idx : Nat} {kind : Bool}
    (h : nextAttr s = some (idx, kind)) :
    idx + (if kind then hrefPat else srcPat).length ≤ s.length := by
  have h1 := (nextAttr_eq_some h).1
  cases kind
  · exact patAt_length (by simpa using h1) srcPat_ne_nil
  · exact patAt_length (by simpa using h1) hrefPat_ne_nil

theorem sanGo_congr : ∀ (f1 f2 : Nat) (s : List Char),
    s.length ≤ f1 → s.length ≤ f2 → sanGo f1 s = sanGo f2 s := by
  intro f1
  induction f1 with
  | zero =>
    intro f2 s h1 _
    have : s = [] := List.length_eq_zero.mp (by omega)
    subst this
    cases f2 with
    | zero => rfl
    | succ g =>
      have : nextAttr [] = none := by decide
      simp [sanGo, this]
  | succ f ih =>
    intro f2 s h1 h2
    cases f2 with
    | zero =>
      have : s = [] := List.length_eq_zero.mp (by omega)
      subst this
      have : nextAttr [] = none := by decide
      simp [sanGo, this]
    | succ g =>
      simp only [sanGo]
      cases hna : nextAttr s with
      | none => rfl
      | some p =>
        obtain ⟨idx, kind⟩ := p
        simp only []
        cases hq : findChar '"' (s.drop (idx + (if kind then hrefPat else srcPat).length)) with
        | none => rfl
        | some j =>
          simp only []
          have hlen := nextAttr_some_length hna
          have hrl : (s.drop (idx + (if kind then hrefPat else srcPat).length)).length
              = s.length - (idx + (if kind then hrefPat else srcPat).length) :=
            List.length_drop _ _
          have hpatpos : 0 < (if kind then hrefPat else srcPat).length := by
            cases kind <;> decide
          have harg : ((s.drop (idx + (if kind then hrefPat else srcPat).length)).drop (j + 1)).length
              < s.length := by
            rw [List.length_drop, hrl]
            omega
          rw [ih g _ (by omega) (by omega)]

theorem sanitize_eq_sanGo {s : List Char} {f : Nat} (h : s.length ≤ f) :
    sanitize_generated_html s = sanGo f s :=
  sanGo_congr s.length f s (Nat.le_refl _) h

/-- Unfolding: no `href="`/`src="` occurrence, the input is returned as is. -/
theorem san_none {s : List Char} (h : nextAttr s = none) :
    sanitize_generated_html s = s := by
  unfold sanitize_generated_html
  cases hs : s.length with
  | zero => rfl
  | succ n => simp [sanGo, h]

/-- Unfolding: an attribute with no closing quote copies the remainder
unchanged (so the result is the input itself). -/
theorem san_noquote {s : List Char} {idx : Nat} {kind : Bool}
    (h : nextAttr s = some (idx, kind))
    (hq : findChar '"' (s.drop (idx + (if kind then hrefPat else srcPat).length)) = none) :
    sanitize_generated_html s = s := by
  have hlen := nextAttr_some_length h
  have hpatpos : 0 < (if kind then hrefPat else srcPat).length := by
    cases kind <;> decide
  have hspos : 0 < s.length := by omega
  unfold sanitize_generated_html
  cases hs : s.length with
  | zero => omega
  | succ n =>
    simp only [sanGo, h, hq]
    have := patAt_decomp (nextAttr_eq_some h).1
    exact this.symm

/-- Unfolding: an attribute with a closing quote rewrites the value and
recurses past the quote. -/
theorem san_quote {s : List Char} {idx : Nat} {kind : Bool} {j : Nat}
    (h : nextAttr s = some (idx, kind))
    (hq : findChar '"' (s.drop (idx + (if kind then hrefPat else srcPat).length)) = some j) :
    sanitize_generated_html s =
      s.take idx ++ (if kind then hrefPat else srcPat) ++
      (let val := (s.drop (idx + (if kind then hrefPat else srcPat).length)).take j
       if kind then (if is_safe_href val then val else ['#'])
       else (if is_safe_img_src val then val else [])) ++
      '"' :: sanitize_generated_html
        ((s.drop (idx + (if kind then hrefPat else srcPat).length)).drop (j + 1)) := by
  have hlen := nextAttr_some_length h
  have hpatpos : 0 < (if kind then hrefPat else srcPat).length := by
    cases kind <;> decide
  have hspos : 0 < s.length := by omega
  unfold sanitize_generated_html
  cases hs : s.length with
  | zero => omega
  | succ n =>
    simp only [sanGo, h, hq]
    have harg : ((s.drop (idx + (if kind then hrefPat else srcPat).length)).drop (j + 1)).length
        ≤ n := by
      rw [List.length_drop, List.length_drop]
      omega
    rw [sanGo_congr n _ _ harg (Nat.le_refl _)]

/-! ## Structural decomposition of HTML around `href="`/`src="` attributes

`assemble segs tl` builds an HTML string from text chunks interleaved with
quoted `href`/`src` attributes, the form in which the claims about
`sanitize_generated_html` speak of "attributes". -/

/-- A quoted attribute as matched by the sanitizer's scan. -/
inductive Attr
  | hrefA (v : List Char)
  | srcA (v : List Char)
deriving DecidableEq

def attrPat : Attr → List Char
  | .hrefA _ => hrefPat
  | .srcA _ => srcPat

def attrVal : Attr → List Char
  | .hrefA v => v
  | .srcA v => v

/-- The serialized attribute: pattern, value, closing quote. -/
def attrStr (a : Attr) : List Char := attrPat a ++ attrVal a ++ ['"']

/-- The per-attribute action of the sanitizer, as the specification states
it: an `href` value failing `is_safe_href` becomes `#` (link kept), a `src`
value failing `is_safe_img_src` becomes empty (attribute kept), safe values
pass unchanged. -/
def sanAttr : Attr → Attr
  | .hrefA v => .hrefA (if is_safe_href v then v else ['#'])
  | .srcA v => .srcA (if is_safe_img_src v then v else [])

/-- Trailing part of a decomposed string: either attribute-free text, or a
final attribute pattern whose value never sees a closing quote. -/
inductive HtmlTail
  | plain (t : List Char)
  | unclosed (t : List Char) (kind : Bool) (r : List Char)

def assembleTail : HtmlTail → List Char
  | .plain t => t
  | .unclosed t kind r => t ++ (if kind then hrefPat else srcPat) ++ r

def assemble : List (List Char × Attr) → HtmlTail → List Char
  | [], tl => assembleTail tl
  | (t, a) :: rest, tl => t ++ attrStr a ++ assemble rest tl

/-- The text chunk before an attribute pattern contains no earlier
occurrence of either pattern (occurrences starting in the chunk always end
inside `t ++ pat`, so this is a property of `t ++ pat` alone). -/
def ChunkOk (t pat : List Char) : Prop :=
  ∀ i < t.length, ¬ patAt hrefPat (t ++ pat) i ∧ ¬ patAt srcPat (t ++ pat) i

/-- Attribute-pattern-free text. -/
def NoPats (t : List Char) : Prop :=
  ∀ i < t.length, ¬ patAt hrefPat t i ∧ ¬ patAt srcPat t i

def WfTail : HtmlTail → Prop
  | .plain t => NoPats t
  | .unclosed t kind r =>
      ChunkOk t (if kind then hrefPat else srcPat) ∧ findChar '"' r = none

/-- Well-formed decomposition: each text chunk is occurrence-free before
its attribute, and attribute values contain no quote (in serialized HTML a
quote would end the value). -/
def Wf : List (List Char × Attr) → HtmlTail → Prop
  | [], tl => WfTail tl
  | (t, a) :: rest, tl =>
      ChunkOk t (attrPat a) ∧ findChar '"' (attrVal a) = none ∧ Wf rest tl

instance : DecidablePred NoPats := by
  unfold NoPats; infer_instance

instance (t pat : List Char) : Decidable (ChunkOk t pat) := by
  unfold ChunkOk; infer_instance

instance (tl : HtmlTail) : Decidable (WfTail tl) := by
  rcases tl with t | ⟨t, k, r⟩ <;> unfold WfTail <;> infer_instance

instance : ∀ (segs : List (List Char × Attr)) (tl : HtmlTail),
    Decidable (Wf segs tl)
  | [], tl => by unfold Wf; infer_instance
  | (t, a) :: rest, tl =>
      have : Decidable (Wf rest tl) := instDecidableWf rest tl
      by unfold Wf; infer_instance

/-! ### Transfer lemmas for pattern occurrences -/

theorem patAt_append_left {p a b : List Char} {i : Nat}
    (h : i + p.length ≤ a.length) : patAt p (a ++ b) i ↔ patAt p a i := by
  unfold patAt
  rw [List.drop_append_eq_append_drop, Nat.sub_eq_zero_of_le (by omega),
    List.drop_zero, List.take_append_eq_append_take,
    Nat.sub_eq_zero_of_le (by rw [List.length_drop]; omega),
    List.take_zero, List.append_nil]

theorem patAt_getElem {p s : List Char} {i : Nat} (h : patAt p s i)
    {k : Nat} (hk : k < p.length) : s[i + k]? = p[k]? := by
  unfold patAt at h
  have h2 := congrArg (fun l => l[k]?) h
  simp only at h2
  rwa [List.getElem?_take, if_pos hk, List.getElem?_drop] at h2

theorem patAt_of_ge_length {p s : List Char} {i : Nat} (hp : p ≠ [])
    (hi : s.length ≤ i) : ¬ patAt p s i := by
  intro h
  have := patAt_length h hp
  have : 0 < p.length := List.length_pos.mpr hp
  omega

theorem noPats_all {t : List Char} (h : NoPats t) :
    ∀ i, ¬ patAt hrefPat t i ∧ ¬ patAt srcPat t i := by
  intro i
  by_cases hi : i < t.length
  · exact h i hi
  · exact ⟨patAt_of_ge_length hrefPat_ne_nil (by omega),
      patAt_of_ge_length srcPat_ne_nil (by omega)⟩

theorem findPat_none_of {p s : List Char} (h : ∀ i, ¬ patAt p s i) :
    findPat p s = none := by
  cases hf : findPat p s with
  | none => rfl
  | some i => exact absurd (findPat_eq_some hf).1 (h i)

/-- Both sanitizer patterns have length between 5 and 6. -/
theorem patLen_bounds (k : Bool) :
    5 ≤ (if k then hrefPat else srcPat).length ∧
      (if k then hrefPat else srcPat).length ≤ 6 := by
  cases k <;> exact ⟨by decide, by decide⟩

/-- An occurrence starting strictly inside the text chunk lies entirely
within `t ++ pat`; `ChunkOk` therefore excludes occurrences before the
designated pattern in any continuation. -/
theorem chunkOk_elim {t pat x : List Char} (hc : ChunkOk t pat)
    (hpat : 5 ≤ pat.length) :
    ∀ j < t.length, ¬ patAt hrefPat (t ++ pat ++ x) j ∧
      ¬ patAt srcPat (t ++ pat ++ x) j := by
  intro j hj
  have hlen : (t ++ pat).length = t.length + pat.length := List.length_append _ _
  have hh : j + hrefPat.length ≤ (t ++ pat).length := by
    have : hrefPat.length = 6 := by decide
    omega
  have hs : j + srcPat.length ≤ (t ++ pat).length := by
    have : srcPat.length = 5 := by decide
    omega
  rw [patAt_append_left hh, patAt_append_left hs]
  exact hc j hj

theorem chunkOk_intro {t pat x : List Char} (hpat : 5 ≤ pat.length)
    (h : ∀ j < t.length, ¬ patAt hrefPat (t ++ pat ++ x) j ∧
      ¬ patAt srcPat (t ++ pat ++ x) j) : ChunkOk t pat := by
  intro j hj
  have hlen : (t ++ pat).length = t.length + pat.length := List.length_append _ _
  have hh : j + hrefPat.length ≤ (t ++ pat).length := by
    have : hrefPat.length = 6 := by decide
    omega
  have hs : j + srcPat.length ≤ (t ++ pat).length := by
    have : srcPat.length = 5 := by decide
    omega
  have h2 := h j hj
  rw [patAt_append_left hh, patAt_append_left hs] at h2
  exact h2

/-- The two patterns differ in their first character, so they never occur
at the same index. -/
theorem patAt_not_other {s : List Char} {n : Nat} {k : Bool}
    (h : patAt (if k then hrefPat else srcPat) s n) :
    ¬ patAt (if k then srcPat else hrefPat) s n := by
  intro h2
  have e1 := patAt_getElem h (k := 0) (by cases k <;> decide)
  have e2 := patAt_getElem h2 (k := 0) (by cases k <;> decide)
  rw [e1] at e2
  cases k
  · exact absurd e2 (by decide)
  · exact absurd e2 (by decide)

/-- If the chosen pattern occurs at `n`, nothing occurs before `n`, and the
other pattern does not occur at `n`, the sanitizer's scan selects exactly
`(n, kind)`. -/
theorem nextAttr_intro {s : List Char} {n : Nat} {k : Bool}
    (hat : patAt (if k then hrefPat else srcPat) s n)
    (hmin : ∀ j < n, ¬ patAt hrefPat s j ∧ ¬ patAt srcPat s j) :
    nextAttr s = some (n, k) := by
  have hother := patAt_not_other hat
  have hfind : findPat (if k then hrefPat else srcPat) s = some n := by
    obtain ⟨j, hj, hfj⟩ := findPat_complete hat
    obtain ⟨h1, -⟩ := findPat_eq_some hfj
    rcases Nat.lt_or_ge j n with hlt | hge
    · exfalso
      have := hmin j hlt
      cases k
      · exact this.2 h1
      · exact this.1 h1
    · have : j = n := by omega
      rwa [this] at hfj
  cases k
  · -- chosen pattern is src
    have hsrc : findPat srcPat s = some n := by simpa using hfind
    unfold nextAttr
    cases hh : findPat hrefPat s with
    | none => rw [hsrc]
    | some m =>
      have hm : n < m := by
        obtain ⟨h1, -⟩ := findPat_eq_some hh
        rcases Nat.lt_or_ge m n with hlt | hge
        · exact absurd h1 (hmin m hlt).1
        · rcases Nat.eq_or_lt_of_le hge with heq | hlt
          · exact absurd h1 (by rw [heq] at hother; simpa using hother)
          · exact hlt
      rw [hsrc]
      simp [Nat.not_le.mpr hm]
  · -- chosen pattern is href
    have hhref : findPat hrefPat s = some n := by simpa using hfind
    unfold nextAttr
    cases hk : findPat srcPat s with
    | none => rw [hhref]
    | some m =>
      have hm : n < m := by
        obtain ⟨h1, -⟩ := findPat_eq_some hk
        rcases Nat.lt_or_ge m n with hlt | hge
        · exact absurd h1 (hmin m hlt).2
        · rcases Nat.eq_or_lt_of_le hge with heq | hlt
          · exact absurd h1 (by rw [heq] at hother; simpa using hother)
          · exact hlt
      rw [hhref]
      simp [Nat.le_of_lt hm]

theorem findChar_append_quote {v A : List Char} (h : findChar '"' v = none) :
    findChar '"' (v ++ '"' :: A) = some v.length := by
  induction v with
  | nil => simp [findChar]
  | cons a t ih =>
    have ha : ¬ a = '"' := by
      intro hc
      simp [findChar, hc] at h
    have ht : findChar '"' t = none := by
      cases hf : findChar '"' t with
      | none => rfl
      | some m => simp [findChar, ha, hf] at h
    show findChar '"' (a :: (t ++ '"' :: A)) = some (a :: t).length
    rw [findChar, if_neg ha, ih ht]
    rfl

theorem findChar_take_none {c : Char} {r : List Char} {j : Nat}
    (h : findChar c r = some j) : findChar c (r.take j) = none := by
  induction r generalizing j with
  | nil => simp [findChar] at h
  | cons a t ih =>
    by_cases ha : a = c
    · simp [findChar, ha] at h
      subst h
      simp [findChar]
    · simp [findChar, ha] at h
      obtain ⟨j', hj', rfl⟩ := h
      simp [findChar, ha, ih hj']

theorem nextAttr_none_intro {s : List Char}
    (h : ∀ j, ¬ patAt hrefPat s j ∧ ¬ patAt srcPat s j) : nextAttr s = none := by
  unfold nextAttr
  rw [findPat_none_of (fun i => (h i).1), findPat_none_of (fun i => (h i).2)]

/-- The attribute kind: `true` for `href`, matching the sanitizer's flag. -/
def kindA : Attr → Bool
  | .hrefA _ => true
  | .srcA _ => false

theorem attrPat_eq (a : Attr) :
    attrPat a = if kindA a then hrefPat else srcPat := by
  cases a <;> rfl

theorem attrPat_sanAttr (a : Attr) : attrPat (sanAttr a) = attrPat a := by
  cases a <;> simp [sanAttr, attrPat]

theorem kindA_sanAttr (a : Attr) : kindA (sanAttr a) = kindA a := by
  cases a <;> simp [sanAttr, kindA]

theorem patAt_boundaryL (t pat x : List Char) :
    patAt pat (t ++ pat ++ x) t.length := by
  unfold patAt
  rw [List.drop_append_eq_append_drop, List.drop_left,
    Nat.sub_eq_zero_of_le (by simp), List.drop_zero, List.take_left]

theorem take_append2 (t pat x : List Char) :
    (t ++ pat ++ x).take t.length = t := by
  rw [List.take_append_eq_append_take,
    Nat.sub_eq_zero_of_le (by simp), List.take_zero, List.append_nil,
    List.take_append_eq_append_take, Nat.sub_self, List.take_zero,
    List.append_nil, List.take_length]

theorem drop_append2 (t pat x : List Char) :
    (t ++ pat ++ x).drop (t.length + pat.length) = x :=
  List.drop_left' (by simp)

theorem drop_after_quote (v A : List Char) :
    (v ++ '"' :: A).drop (v.length + 1) = A := by
  rw [List.append_cons]
  exact List.drop_left' (by simp)

/-- The value written back by the sanitizer's quote branch equals the
spec-side `sanAttr` action. -/
theorem val2_eq_sanAttr (a : Attr) :
    (if kindA a then
        (if is_safe_href (attrVal a) then attrVal a else ['#'])
      else (if is_safe_img_src (attrVal a) then attrVal a else [])) =
      attrVal (sanAttr a) := by
  cases a <;> simp [kindA, sanAttr, attrVal]

/-- Core theorem about `sanitize_generated_html`: on HTML decomposed into
text chunks and quoted `href`/`src` attributes, the sanitizer rewrites
exactly the attribute values by `sanAttr` and leaves all structure — text,
attribute names, quotes, order — unchanged. -/
theorem sanitize_assemble : ∀ (segs : List (List Char × Attr)) (tl : HtmlTail),
    Wf segs tl →
    sanitize_generated_html (assemble segs tl) =
      assemble (segs.map (fun p => (p.1, sanAttr p.2))) tl := by
  intro segs
  induction segs with
  | nil =>
    intro tl hwf
    rcases tl with t | ⟨t, k, r⟩
    · simp only [assemble, assembleTail, List.map_nil]
      exact san_none (nextAttr_none_intro (noPats_all hwf))
    · obtain ⟨hchunk, hq⟩ := hwf
      simp only [assemble, assembleTail, List.map_nil]
      have hpat5 : 5 ≤ (if k then hrefPat else srcPat).length :=
        (patLen_bounds k).1
      have hna : nextAttr (t ++ (if k then hrefPat else srcPat) ++ r) =
          some (t.length, k) :=
        nextAttr_intro (patAt_boundaryL _ _ _) (chunkOk_elim hchunk hpat5)
      apply san_noquote hna
      rw [drop_append2]
      exact hq
  | cons hd rest ih =>
    obtain ⟨t, a⟩ := hd
    intro tl hwf
    obtain ⟨hchunk, hqv, hwf'⟩ := hwf
    set A := assemble rest tl with hA
    have hs : assemble ((t, a) :: rest) tl =
        t ++ attrPat a ++ (attrVal a ++ '"' :: A) := by
      simp [assemble, attrStr, List.append_assoc]
    have hpat5 : 5 ≤ (attrPat a).length := by
      rw [attrPat_eq]; exact (patLen_bounds _).1
    have hna : nextAttr (t ++ attrPat a ++ (attrVal a ++ '"' :: A)) =
        some (t.length, kindA a) := by
      apply nextAttr_intro
      · rw [← attrPat_eq]
        exact patAt_boundaryL _ _ _
      · exact chunkOk_elim hchunk hpat5
    have hdrop : (t ++ attrPat a ++ (attrVal a ++ '"' :: A)).drop
        (t.length + (if kindA a then hrefPat else srcPat).length) =
        attrVal a ++ '"' :: A := by
      rw [← attrPat_eq]
      exact drop_append2 _ _ _
    have hfq : findChar '"'
        ((t ++ attrPat a ++ (attrVal a ++ '"' :: A)).drop
          (t.length + (if kindA a then hrefPat else srcPat).length)) =
        some (attrVal a).length := by
      rw [hdrop]
      exact findChar_append_quote hqv
    rw [hs, san_quote hna hfq]
    rw [hdrop, take_append2]
    have htake : (attrVal a ++ '"' :: A).take (attrVal a).length = attrVal a :=
      List.take_left _ _
    rw [htake, drop_after_quote]
    rw [ih tl hwf']
    have hrhs : assemble ((t, sanAttr a) :: rest.map (fun p => (p.1, sanAttr p.2))) tl =
        t ++ attrPat a ++ (attrVal (sanAttr a) ++ '"' ::
          assemble (rest.map (fun p => (p.1, sanAttr p.2))) tl) := by
      simp [assemble, attrStr, attrPat_sanAttr, List.append_assoc]
    simp only [List.map_cons]
    rw [hrhs, ← attrPat_eq, ← val2_eq_sanAttr a]
    simp [List.append_assoc]

/-- The sanitizer's output always admits a well-formed decomposition whose
attributes are fixed points of `sanAttr`. -/
theorem exists_decomp : ∀ (n : Nat) (s : List Char), s.length ≤ n →
    ∃ (segs : List (List Char × Attr)) (tl : HtmlTail),
      Wf segs tl ∧ segs.map (fun p => (p.1, sanAttr p.2)) = segs ∧
      sanitize_generated_html s = assemble segs tl := by
  intro n
  induction n with
  | zero =>
    intro s hs
    have : s = [] := List.length_eq_zero.mp (by omega)
    subst this
    refine ⟨[], .plain [], ?_, by simp, ?_⟩
    · show NoPats []
      intro i hi
      simp at hi
    · exact san_none (by decide)
  | succ n ih =>
    intro s hs
    cases hna : nextAttr s with
    | none =>
      refine ⟨[], .plain s, ?_, by simp, ?_⟩
      · show NoPats s
        intro i _
        exact nextAttr_eq_none hna i
      · exact san_none hna
    | some p =>
      obtain ⟨idx, kind⟩ := p
      have hat := (nextAttr_eq_some hna).1
      have hmin := (nextAttr_eq_some hna).2
      have hlen := nextAttr_some_length hna
      have hpat5 := (patLen_bounds kind).1
      have hpat6 := (patLen_bounds kind).2
      have hidx : idx ≤ s.length := by omega
      have htklen : (s.take idx).length = idx := by
        rw [List.length_take]; omega
      have hdec := patAt_decomp hat
      have hchunk : ChunkOk (s.take idx) (if kind then hrefPat else srcPat) := by
        apply chunkOk_intro hpat5 (x := s.drop (idx + (if kind then hrefPat else srcPat).length))
        rw [htklen, ← hdec]
        exact fun j hj => hmin j hj
      cases hq : findChar '"'
          (s.drop (idx + (if kind then hrefPat else srcPat).length)) with
      | none =>
        refine ⟨[], .unclosed (s.take idx) kind
          (s.drop (idx + (if kind then hrefPat else srcPat).length)),
          ⟨hchunk, hq⟩, by simp, ?_⟩
        rw [san_noquote hna hq]
        simpa [assemble, assembleTail] using hdec
      | some j =>
        set rest := s.drop (idx + (if kind then hrefPat else srcPat).length)
          with hrest
        have hrestlen : rest.length = s.length -
            (idx + (if kind then hrefPat else srcPat).length) :=
          List.length_drop _ _
        have htail : (rest.drop (j + 1)).length ≤ n := by
          rw [List.length_drop]
          omega
        obtain ⟨segs', tl', hwf', hfix', heq'⟩ := ih (rest.drop (j + 1)) htail
        set val := rest.take j with hval
        set val2 := (if kind then (if is_safe_href val then val else ['#'])
          else (if is_safe_img_src val then val else [])) with hval2
        set attr := (if kind then Attr.hrefA val2 else Attr.srcA val2)
          with hattr
        have hattrval : attrVal attr = val2 := by
          cases kind <;> simp [hattr, attrVal]
        have hattrpat : attrPat attr = (if kind then hrefPat else srcPat) := by
          cases kind <;> simp [hattr, attrPat]
        refine ⟨(s.take idx, attr) :: segs', tl', ⟨?_, ?_, hwf'⟩, ?_, ?_⟩
        · rw [hattrpat]
          exact hchunk
        · rw [hattrval, hval2]
          have hvq : findChar '"' val = none := findChar_take_none hq
          cases kind
          · by_cases hsafe : is_safe_img_src val
            · simp [hsafe, hvq]
            · simp [hsafe, findChar]
          · by_cases hsafe : is_safe_href val
            · simp [hsafe, hvq]
            · simp [hsafe, findChar]
        · have hfixattr : sanAttr attr = attr := by
            rw [hattr, hval2]
            cases kind
            · by_cases hsafe : is_safe_img_src val
              · simp [sanAttr, hsafe]
              · simp [sanAttr, hsafe]
            · by_cases hsafe : is_safe_href val
              · simp [sanAttr, hsafe]
              · simp [sanAttr, hsafe]
          simp [hfixattr, hfix']
        · rw [san_quote hna hq]
          simp only [assemble, attrStr, hattrpat, hattrval, ← hrest, ← hval,
            ← hval2, heq']
          simp [List.append_assoc]

/-- Idempotence of the sanitizer, via the fixed decomposition of its
output. -/
theorem sanitize_idem (s : List Char) :
    sanitize_generated_html (sanitize_generated_html s) =
      sanitize_generated_html s := by
  obtain ⟨segs, tl, hwf, hfix, heq⟩ :=
    exists_decomp s.length s (Nat.le_refl _)
  rw [heq, sanitize_assemble segs tl hwf, hfix]

/-! ## Claims C2 and C3 -/

/-- C2: for every HTML string decomposed into text chunks and quoted
`href="..."`/`src="..."` attributes (text chunks free of earlier attribute
occurrences, values quote-free), `sanitize_generated_html` replaces every
`href` value that does not start — after trimming and lowercasing — with
`http:`, `https:` or `mailto:` by the single character `#`, keeps the link
present, replaces every `src` value that is not `http:`/`https:`/
`data:image/*` by the empty string while keeping the attribute and element
present, and passes permitted values through unchanged: the output is the
same decomposition with exactly the values rewritten by `sanAttr`. -/
theorem claim_C2_sanitizer_attribute_policy
    (segs : List (List Char × Attr)) (tl : HtmlTail) (hwf : Wf segs tl) :
    sanitize_generated_html (assemble segs tl) =
      assemble (segs.map (fun p => (p.1, sanAttr p.2))) tl :=
  sanitize_assemble segs tl hwf

/-- Concrete decomposition for the C2 witness: an unsafe `javascript:` link
followed by a safe image source. -/
def c2segs : List (List Char × Attr) :=
  [("<p>Link <a ".toList, Attr.hrefA "javascript:alert(1)".toList),
   (">x</a> <img ".toList, Attr.srcA "https://e.com/i.png".toList)]

def c2tl : HtmlTail := HtmlTail.plain " alt=1></p>".toList

/-- Witness for C2 at a concrete input: the unsafe `href` becomes `#`, the
safe `src` survives unchanged. -/
theorem claim_C2_sanitizer_attribute_policy_witness :
    Wf c2segs c2tl ∧
      sanitize_generated_html (assemble c2segs c2tl) =
        assemble (c2segs.map (fun p => (p.1, sanAttr p.2))) c2tl :=
  ⟨by decide, claim_C2_sanitizer_attribute_policy c2segs c2tl (by decide)⟩

/-- C3: the sanitizer is idempotent — for every HTML string `x`,
`sanitize_generated_html (sanitize_generated_html x) =
sanitize_generated_html x`. -/
theorem claim_C3_sanitizer_idempotent (x : List Char) :
    sanitize_generated_html (sanitize_generated_html x) =
      sanitize_generated_html x :=
  sanitize_idem x

/-! ## `<script>`-freeness machinery

Compositional reasoning for the absence of the substring `<script>`:
`SPS A` says no nonempty proper prefix of `<script>` is a suffix of `A`,
`FrontOk B` says no nonempty proper suffix of `<script>` is a prefix of
`B`; either one rules out occurrences spanning the boundary of `A ++ B`. -/

def scriptPat : List Char := "<script>".toList

theorem scriptPat_length : scriptPat.length = 8 := rfl

def SPS (A : List Char) : Prop :=
  ∀ k, 0 < k → k < 8 → A.drop (A.length - k) ≠ scriptPat.take k

def FrontOk (B : List Char) : Prop :=
  ∀ k, 0 < k → k < 8 → B.take (8 - k) ≠ scriptPat.drop k

theorem noOcc_of_findPat {p s : List Char} (h : findPat p s = none) :
    NoOcc p s :=
  findPat_eq_none h

theorem noOcc_append {A B : List Char}
    (hA : NoOcc scriptPat A) (hB : NoOcc scriptPat B)
    (hAB : SPS A ∨ FrontOk B) : NoOcc scriptPat (A ++ B) := by
  intro i hpat
  rcases Nat.lt_or_ge A.length (i + 8) with hgt | hle
  · rcases Nat.lt_or_ge i A.length with hlt | hge
    · -- spanning occurrence
      set k := A.length - i with hk
      have hk1 : 0 < k := by omega
      have hk8 : k < 8 := by omega
      have hdrop : (A ++ B).drop i = A.drop i ++ B := by
        rw [List.drop_append_eq_append_drop,
          Nat.sub_eq_zero_of_le (by omega), List.drop_zero]
      have hlenAi : (A.drop i).length = k := by
        rw [List.length_drop]
      have hsp : scriptPat = A.drop i ++ B.take (8 - k) := by
        unfold patAt at hpat
        rw [scriptPat_length, hdrop, List.take_append_eq_append_take,
          List.take_of_length_le (by omega), hlenAi] at hpat
        exact hpat.symm
      rcases hAB with hS | hF
      · apply hS k hk1 hk8
        have he : A.length - k = i := by omega
        rw [he]
        have : scriptPat.take k = (A.drop i ++ B.take (8 - k)).take k := by
          rw [← hsp]
        rw [this, List.take_append_eq_append_take, hlenAi, Nat.sub_self,
          List.take_zero, List.append_nil, List.take_of_length_le (by omega)]
      · apply hF k hk1 hk8
        have : scriptPat.drop k = (A.drop i ++ B.take (8 - k)).drop k := by
          rw [← hsp]
        rw [this, List.drop_append_eq_append_drop,
          List.drop_eq_nil_of_le (by omega), hlenAi, Nat.sub_self,
          List.drop_zero, List.nil_append]
    · -- occurrence inside B
      apply hB (i - A.length)
      unfold patAt at hpat ⊢
      rwa [List.drop_append_eq_append_drop, List.drop_eq_nil_of_le hge,
        List.nil_append] at hpat
  · -- occurrence inside A
    exact hA i ((patAt_append_left (by rw [scriptPat_length]; omega)).mp hpat)

theorem take_scriptPat_length {k : Nat} (hk : k ≤ 8) :
    (scriptPat.take k).length = k := by
  rw [List.length_take, scriptPat_length]; omega

theorem sps_nil : SPS [] := by
  intro k hk1 hk8 heq
  have := congrArg List.length heq
  rw [List.drop_nil, List.length_nil, take_scriptPat_length (by omega)] at this
  omega

theorem noOcc_nil : NoOcc scriptPat [] := by
  intro i h
  have := patAt_length h (by decide)
  rw [scriptPat_length, List.length_nil] at this
  omega

theorem scriptPat_head : scriptPat[0]? = some '<' := rfl

theorem mem_take_scriptPat {c : Char} {j k : Nat} (hjk : j < k)
    (h : scriptPat[j]? = some c) : c ∈ scriptPat.take k := by
  have h2 : (scriptPat.take k)[j]? = some c := by
    rw [List.getElem?_take, if_pos hjk]
    exact h
  exact List.getElem?_mem h2

theorem noOcc_of_no_lt {s : List Char} (h : '<' ∉ s) : NoOcc scriptPat s := by
  intro i hpat
  have h1 := patAt_getElem hpat (k := 0) (by rw [scriptPat_length]; omega)
  rw [scriptPat_head] at h1
  have h2 : s[i]? = some '<' := by simpa using h1
  exact h (List.getElem?_mem h2)

theorem sps_of_no_lt {A : List Char} (h : '<' ∉ A) : SPS A := by
  intro k hk1 hk8 heq
  have hmem : '<' ∈ A.drop (A.length - k) := by
    rw [heq]
    exact mem_take_scriptPat (j := 0) (by omega) scriptPat_head
  exact h (List.mem_of_mem_drop hmem)

theorem sps_of_getLast {A : List Char} {c : Char} (hc : A.getLast? = some c)
    (hm : c ∉ scriptPat.take 7) : SPS A := by
  intro k hk1 hk8 heq
  have hAne : A ≠ [] := by
    intro hnil; rw [hnil] at hc; simp at hc
  have hApos : 0 < A.length := List.length_pos.mpr hAne
  have hlast : (A.drop (A.length - k)).getLast? = some c := by
    rw [List.getLast?_drop, if_neg (by omega)]
    exact hc
  rw [heq, List.getLast?_eq_getElem?, take_scriptPat_length (by omega),
    List.getElem?_take, if_pos (by omega)] at hlast
  exact hm (mem_take_scriptPat (j := k - 1) (by omega) hlast)

theorem frontOk_of_head {B : List Char} {c : Char} (hc : B[0]? = some c)
    (hm : ∀ k < 8, 0 < k → ¬ scriptPat[k]? = some c) : FrontOk B := by
  intro k hk1 hk8 heq
  have h0 : (B.take (8 - k))[0]? = some c := by
    rw [List.getElem?_take, if_pos (by omega)]
    exact hc
  rw [heq, List.getElem?_drop, Nat.add_zero] at h0
  exact hm k hk8 hk1 h0

theorem frontOk_of_two {B : List Char} {a b : Char}
    (h0 : B[0]? = some a) (h1 : B[1]? = some b)
    (hm : ∀ k < 7, 0 < k →
      ¬ (scriptPat[k]? = some a ∧ scriptPat[k + 1]? = some b))
    (hm7 : ¬ scriptPat[7]? = some a) : FrontOk B := by
  intro k hk1 hk8 heq
  have e0 : (B.take (8 - k))[0]? = some a := by
    rw [List.getElem?_take, if_pos (by omega)]
    exact h0
  rw [heq, List.getElem?_drop, Nat.add_zero] at e0
  rcases Nat.lt_or_ge k 7 with hk7 | hk7
  · have e1 : (B.take (8 - k))[1]? = some b := by
      rw [List.getElem?_take, if_pos (by omega)]
      exact h1
    rw [heq, List.getElem?_drop] at e1
    exact hm k hk7 hk1 ⟨e0, e1⟩
  · have : k = 7 := by omega
    rw [this] at e0
    exact hm7 e0

theorem noOcc_take {p s : List Char} (h : NoOcc p s) (n : Nat) :
    NoOcc p (s.take n) := by
  intro i hpat
  by_cases hp : p = []
  · subst hp
    have := h 0
    unfold patAt at this
    simp at this
  · have hlen := patAt_length hpat hp
    apply h i
    have hsplit : s = s.take n ++ s.drop n := (List.take_append_drop n s).symm
    rw [hsplit]
    exact (patAt_append_left (by omega)).mpr hpat

theorem noOcc_drop {p s : List Char} (h : NoOcc p s) (n : Nat) :
    NoOcc p (s.drop n) := by
  intro i hpat
  apply h (n + i)
  unfold patAt at hpat ⊢
  rwa [← List.drop_drop]

/-! ## `markrust-core`: the event pipeline of `parse_markdown_with_theme`

The pulldown-cmark parser and the syntect highlighter are external
primitives (the spec's §1 non-goals). The event stream type, the HTML
writer `pushHtml` and the highlighter parameter `hl` are modelled from the
spec; the event-rewriting loop `procEvent`/`processEvents` is translated
from the `for event in parser` loop of `parse_markdown_with_theme`. -/

/-- Kind of a code block event (pulldown-cmark `CodeBlockKind`). -/
inductive CbKind
  | fenced (lang : List Char)
  | indented
deriving DecidableEq

/-- Heading levels (pulldown-cmark's `HeadingLevel` enum). -/
inductive HLevel
  | h1 | h2 | h3 | h4 | h5 | h6
deriving DecidableEq

/-- Modelled from the spec: the structural events emitted by the external
Markdown parser primitive (subset of pulldown-cmark's `Event`). -/
inductive Ev
  | startPara
  | endPara
  | startHeading (l : HLevel)
  | endHeading (l : HLevel)
  | startCodeBlock (k : CbKind)
  | endCodeBlock
  | startLink (dest title : List Char)
  | endLink
  | startImage (dest title : List Char)
  | endImage
  | text (t : List Char)
  | code (t : List Char)
  | html (t : List Char)
  | inlineHtml (t : List Char)
  | softBreak
  | hardBreak
  | rule
deriving DecidableEq

/-- The highlighted-block HTML emitted by `parse_markdown_with_theme` when
the registry recognizes the language token: the source's `format!` with the
`div.highlight`/`pre`/`code.language-…` wrapper around the generator
output `hl lang content` (syntect's `ClassedHTMLGenerator`, an external
primitive passed as the parameter `hl`). -/
def highlightBlock (hl : List Char → List Char → List Char)
    (lang content : List Char) : List Char :=
  "<div class=\"highlight\"><pre><code class=\"language-".toList ++ lang ++
    "\">".toList ++ hl lang content ++ "</code></pre></div>".toList

/-- State of the event loop of `parse_markdown_with_theme`: the
`in_code_block` flag, the accumulated `code_block_lang` and
`code_block_content`, and the output `events` vector. -/
structure PState where
  inCode : Bool
  lang : List Char
  content : List Char
  acc : List Ev
deriving DecidableEq

/-- One iteration of the `for event in parser` loop of
`parse_markdown_with_theme` (`markrust-core/src/lib.rs`); `ft` models
`SYNTAX_SET.find_syntax_by_token` (an external lookup primitive, `true`
when a grammar matches). -/
def procEvent (ft : List Char → Bool) (hl : List Char → List Char → List Char)
    (st : PState) (e : Ev) : PState :=
  match e with
  | .html _ => st
  | .inlineHtml _ => st
  | .startCodeBlock k =>
      { st with
        inCode := true
        lang := (match k with | .fenced l => l | .indented => [])
        content := [] }
  | .endCodeBlock =>
      let st1 := { st with inCode := false }
      if st1.lang ≠ [] then
        if ft st1.lang then
          { st1 with
            acc := st1.acc ++ [.html (highlightBlock hl st1.lang st1.content)]
            lang := []
            content := [] }
        else
          { st1 with
            acc := st1.acc ++ [.startCodeBlock (.fenced st1.lang),
              .text st1.content, .endCodeBlock]
            lang := []
            content := [] }
      else
        { st1 with
          acc := st1.acc ++ [.startCodeBlock (.fenced st1.lang),
            .text st1.content, .endCodeBlock]
          lang := []
          content := [] }
  | .startLink dest title =>
      { st with acc := st.acc ++
          [.startLink (if is_safe_href dest then dest else "#".toList) title] }
  | .startImage dest title =>
      { st with acc := st.acc ++
          [.startImage (if is_safe_img_src dest then dest else []) title] }
  | .text t =>
      if st.inCode then { st with content := st.content ++ t }
      else { st with acc := st.acc ++ [.text t] }
  | e => { st with acc := st.acc ++ [e] }

/-- The initial loop state of `parse_markdown_with_theme`. -/
def initPState : PState := ⟨false, [], [], []⟩

/-- The full event-rewriting pass of `parse_markdown_with_theme`: fold the
loop over the parser's event stream and return the rewritten `events`. -/
def processEvents (ft : List Char → Bool)
    (hl : List Char → List Char → List Char) (evs : List Ev) : List Ev :=
  (evs.foldl (procEvent ft hl) initPState).acc

/-- Modelled from the spec: pulldown-cmark's text escaping in
`html::push_html` (the external HTML writer primitive): `&`, `<`, `>`, `"`
are written as entities. -/
def escapeHtmlChar (c : Char) : List Char :=
  if c = '&' then "&amp;".toList
  else if c = '<' then "&lt;".toList
  else if c = '>' then "&gt;".toList
  else if c = '"' then "&quot;".toList
  else [c]

def escapeHtml (t : List Char) : List Char :=
  (t.map escapeHtmlChar).flatten

/-- Modelled from the spec: pulldown-cmark's URL escaping in
`html::push_html` for `href`/`src` attribute values (percent-encoding of
the characters relevant here; ampersands become entities). -/
def escapeHrefChar (c : Char) : List Char :=
  if c = '<' then "%3C".toList
  else if c = '>' then "%3E".toList
  else if c = '"' then "%22".toList
  else if c = '\'' then "%27".toList
  else if c = ' ' then "%20".toList
  else if c = '&' then "&amp;".toList
  else [c]

def escapeHref (t : List Char) : List Char :=
  (t.map escapeHrefChar).flatten

/-- Modelled from the spec: the external `pulldown_cmark::html::push_html`
writer, per event (title attributes and image alt-text collection omitted —
no claim depends on them). -/
def hTag : HLevel → List Char
  | .h1 => "h1".toList
  | .h2 => "h2".toList
  | .h3 => "h3".toList
  | .h4 => "h4".toList
  | .h5 => "h5".toList
  | .h6 => "h6".toList

def renderEv : Ev → List Char
  | .startPara => "<p>".toList
  | .endPara => "</p>\n".toList
  | .startHeading l => '<' :: hTag l ++ ">".toList
  | .endHeading l => '<' :: '/' :: hTag l ++ ">\n".toList
  | .startCodeBlock (.fenced lang) =>
      if lang = [] then "<pre><code>".toList
      else "<pre><code class=\"language-".toList ++ escapeHtml lang ++
        "\">".toList
  | .startCodeBlock .indented => "<pre><code>".toList
  | .endCodeBlock => "</code></pre>\n".toList
  | .startLink dest _ => "<a href=\"".toList ++ escapeHref dest ++ "\">".toList
  | .endLink => "</a>".toList
  | .startImage dest _ =>
      "<img src=\"".toList ++ escapeHref dest ++ "\" />".toList
  | .endImage => []
  | .text t => escapeHtml t
  | .code t => "<code>".toList ++ escapeHtml t ++ "</code>".toList
  | .html t => t
  | .inlineHtml t => t
  | .softBreak => "\n".toList
  | .hardBreak => "<br />\n".toList
  | .rule => "<hr />\n".toList

def pushHtml (evs : List Ev) : List Char := (evs.map renderEv).flatten

/-- `parse_markdown_with_theme` from the parser's event stream onwards:
rewrite the events, render them, and sanitize — the final step of the
source function. The `_theme` parameter is unused, as in the source
(`_theme_name`). -/
def parse_markdown_events (ft : List Char → Bool)
    (hl : List Char → List Char → List Char) (evs : List Ev)
    (_theme : List Char) : List Char :=
  sanitize_generated_html (pushHtml (processEvents ft hl evs))

/-- Modelled from the spec: the external pulldown-cmark parser primitive,
on the fragment of inputs it is modelled for here — a nonempty single line
of inert characters (letters, digits, spaces and plain punctuation with no
Markdown or HTML significance) starting with a letter and not ending in a
space, which CommonMark parses as one paragraph containing the line as
literal text. Returns `none` outside the modelled fragment. -/
def pulldownParse (s : List Char) : Option (List Ev) :=
  match s with
  | [] => none
  | c :: _ =>
      if c.isAlpha ∧
          s.all (fun d => d.isAlpha || d.isDigit ||
            decide (d ∈ [' ', '=', ':', '(', ')', '.', ',', '!', '?', ';'])) ∧
          s.getLast? ≠ some ' ' then
        some [.startPara, .text s, .endPara]
      else none

/-- `parse_markdown_with_theme` from `markrust-core/src/lib.rs`, on the
modelled parser fragment: parse, rewrite events, render, sanitize. -/
def parse_markdown_with_theme (ft : List Char → Bool)
    (hl : List Char → List Char → List Char) (content theme : List Char) :
    Option (List Char) :=
  (pulldownParse content).map (fun evs => parse_markdown_events ft hl evs theme)

/-! ## Claims C5 and C10: the event loop -/

/-- Folding the loop over the text events of a code block accumulates their
concatenation into `code_block_content`. -/
theorem fold_texts (ft : List Char → Bool)
    (hl : List Char → List Char → List Char) (ts : List (List Char)) :
    ∀ st : PState, st.inCode = true →
    (ts.map Ev.text).foldl (procEvent ft hl) st =
      { st with content := st.content ++ ts.flatten } := by
  induction ts with
  | nil =>
    intro st _
    simp
  | cons t ts' ih =>
    intro st hst
    have hstep : procEvent ft hl st (.text t) =
        { st with content := st.content ++ t } := by
      simp [procEvent, hst]
    rw [List.map_cons, List.foldl_cons, hstep,
      ih { st with content := st.content ++ t } (by simp [hst])]
    simp [List.append_assoc]

/-- C5: a fenced code block whose language token matches no grammar in the
registry (`ft lang = false`) is re-emitted by the loop of
`parse_markdown_with_theme` as a plain, unhighlighted fenced code block
whose text is exactly the concatenation of the block's original text
events — from any loop state, so anywhere in a document; the function is
total, so no error is possible. -/
theorem claim_C5_unknown_language_fallback (ft : List Char → Bool)
    (hl : List Char → List Char → List Char) (lang : List Char)
    (ts : List (List Char)) (st : PState) (hft : ft lang = false) :
    ([Ev.startCodeBlock (.fenced lang)] ++ ts.map Ev.text ++
        [Ev.endCodeBlock]).foldl (procEvent ft hl) st =
      { inCode := false, lang := [], content := [],
        acc := st.acc ++ [Ev.startCodeBlock (.fenced lang),
          Ev.text ts.flatten, Ev.endCodeBlock] } := by
  have hstart : procEvent ft hl st (.startCodeBlock (.fenced lang)) =
      { st with inCode := true, lang := lang, content := [] } := by
    simp [procEvent]
  rw [List.foldl_append, List.foldl_append]
  simp only [List.foldl_cons, List.foldl_nil, hstart]
  rw [fold_texts ft hl ts _ (by simp)]
  by_cases hlang : lang = []
  · subst hlang
    simp [procEvent]
  · simp [procEvent, hlang, hft]

/-- Concrete registry for the C5 witness: no grammar matches anything. -/
def c5ft : List Char → Bool := fun _ => false

def c5hl : List Char → List Char → List Char := fun _ _ => []

/-- Witness for C5: the language `nonexistent-lang-xyz` is re-emitted as a
plain fenced block with its content intact. -/
theorem claim_C5_unknown_language_fallback_witness :
    c5ft "nonexistent-lang-xyz".toList = false ∧
      ([Ev.startCodeBlock (.fenced "nonexistent-lang-xyz".toList)] ++
          [Ev.text "let x = 1;\n".toList] ++
          [Ev.endCodeBlock]).foldl (procEvent c5ft c5hl) initPState =
        { inCode := false, lang := [], content := [],
          acc := [Ev.startCodeBlock (.fenced "nonexistent-lang-xyz".toList),
            Ev.text "let x = 1;\n".toList, Ev.endCodeBlock] } := by
  refine ⟨rfl, ?_⟩
  have h := claim_C5_unknown_language_fallback c5ft c5hl
    "nonexistent-lang-xyz".toList ["let x = 1;\n".toList] initPState rfl
  simpa using h

/-- Raw-HTML events of the parser (dropped by the loop). -/
def isRawHtml : Ev → Bool
  | .html _ => true
  | .inlineHtml _ => true
  | _ => false

theorem procEvent_rawHtml {ft : List Char → Bool}
    {hl : List Char → List Char → List Char} {st : PState} {e : Ev}
    (h : isRawHtml e = true) : procEvent ft hl st e = st := by
  cases e <;> simp_all [isRawHtml, procEvent]

/-- Dropping the raw-HTML events of the input does not change the loop's
result at all. -/
theorem foldl_filter_rawHtml (ft : List Char → Bool)
    (hl : List Char → List Char → List Char) (evs : List Ev) :
    ∀ st : PState,
      (evs.filter (fun e => !isRawHtml e)).foldl (procEvent ft hl) st =
        evs.foldl (procEvent ft hl) st := by
  induction evs with
  | nil => intro st; rfl
  | cons e evs' ih =>
    intro st
    by_cases he : isRawHtml e = true
    · simp [List.filter_cons, he, ih, procEvent_rawHtml he]
    · simp only [Bool.not_eq_true] at he
      simp [List.filter_cons, he, ih]

/-- An output event is benign when it is not raw HTML, except for the
highlighter's own block (emitted only when the registry matched). -/
def GoodEv (ft : List Char → Bool)
    (hl : List Char → List Char → List Char) : Ev → Prop
  | .html t => ∃ lang c, t = highlightBlock hl lang c ∧ ft lang = true
  | .inlineHtml _ => False
  | _ => True

theorem procEvent_good {ft : List Char → Bool}
    {hl : List Char → List Char → List Char} {st : PState} {ev : Ev}
    (hacc : ∀ e ∈ st.acc, GoodEv ft hl e) :
    ∀ e ∈ (procEvent ft hl st ev).acc, GoodEv ft hl e := by
  cases ev with
  | html t => exact hacc
  | inlineHtml t => exact hacc
  | startCodeBlock k => exact hacc
  | endCodeBlock =>
    intro e he
    simp only [procEvent] at he
    by_cases hlang : st.lang = []
    · simp [hlang] at he
      rcases he with he | he
      · exact hacc e he
      · rcases he with he | he | he <;> subst he <;> trivial
    · by_cases hft : ft st.lang
      · simp [hlang, hft] at he
        rcases he with he | he
        · exact hacc e he
        · subst he
          exact ⟨st.lang, st.content, rfl, hft⟩
      · simp [hlang, hft] at he
        rcases he with he | he
        · exact hacc e he
        · rcases he with he | he | he <;> subst he <;> trivial
  | startLink dest title =>
    intro e he
    simp only [procEvent, List.mem_append, List.mem_singleton] at he
    rcases he with he | he
    · exact hacc e he
    · subst he; trivial
  | startImage dest title =>
    intro e he
    simp only [procEvent, List.mem_append, List.mem_singleton] at he
    rcases he with he | he
    · exact hacc e he
    · subst he; trivial
  | text t =>
    intro e he
    simp only [procEvent] at he
    by_cases hin : st.inCode = true
    · simp [hin] at he
      exact hacc e he
    · simp only [Bool.not_eq_true] at hin
      simp [hin] at he
      rcases he with he | he
      · exact hacc e he
      · subst he; trivial
  | _ =>
    intro e he
    simp only [procEvent, List.mem_append, List.mem_singleton] at he
    first
    | (rcases he with he | he
       · exact hacc e he
       · subst he; trivial)

theorem foldl_good (ft : List Char → Bool)
    (hl : List Char → List Char → List Char) (evs : List Ev) :
    ∀ st : PState, (∀ e ∈ st.acc, GoodEv ft hl e) →
      ∀ e ∈ (evs.foldl (procEvent ft hl) st).acc, GoodEv ft hl e := by
  induction evs with
  | nil => intro st hacc; exact hacc
  | cons ev evs' ih =>
    intro st hacc
    exact ih _ (procEvent_good hacc)

/-- C10: the loop of `parse_markdown_with_theme` drops every raw-HTML
parser event — the output is unchanged if the raw-HTML events are removed
from the input — and the only HTML events in the output are the
highlighter's own blocks, emitted for registry-matched languages; no
source-authored HTML event survives, not even one an allow-list would
deem safe. -/
theorem claim_C10_raw_html_dropped (ft : List Char → Bool)
    (hl : List Char → List Char → List Char) (evs : List Ev) :
    processEvents ft hl evs =
        processEvents ft hl (evs.filter (fun e => !isRawHtml e)) ∧
      ∀ e ∈ processEvents ft hl evs, GoodEv ft hl e := by
  constructor
  · unfold processEvents
    rw [foldl_filter_rawHtml]
  · intro e he
    exact foldl_good ft hl evs initPState (by intro e h; simp [initPState] at h)
      e he

/-- Concrete registry for the C10 witness. -/
def c10ft : List Char → Bool := fun l => l = "json".toList

def c10hl : List Char → List Char → List Char := fun _ _ => "1".toList

def c10evs : List Ev :=
  [.inlineHtml "<em>hi</em>".toList,
   .html "<script>alert(1)</script>".toList,
   .startPara, .text "ok".toList, .endPara,
   .startCodeBlock (.fenced "json".toList), .text "1".toList, .endCodeBlock]

/-- Witness for C10 at a concrete event stream containing raw inline and
block HTML plus one matched code block. -/
theorem claim_C10_raw_html_dropped_witness :
    (processEvents c10ft c10hl c10evs =
        processEvents c10ft c10hl (c10evs.filter (fun e => !isRawHtml e))) ∧
      (∃ lang c,
        "<div class=\"highlight\"><pre><code class=\"language-json\">1</code></pre></div>".toList =
          highlightBlock c10hl lang c ∧ c10ft lang = true) := by
  constructor
  · exact (claim_C10_raw_html_dropped c10ft c10hl c10evs).1
  · exact (claim_C10_raw_html_dropped c10ft c10hl c10evs).2
      (.html "<div class=\"highlight\"><pre><code class=\"language-json\">1</code></pre></div>".toList)
      (by decide)

/-! ## Claim C1: what survives the full pipeline -/

theorem escapeHtmlChar_no_lt (c : Char) : '<' ∉ escapeHtmlChar c := by
  unfold escapeHtmlChar
  by_cases h1 : c = '&'
  · simp [h1]
  · by_cases h2 : c = '<'
    · simp [h1, h2]
    · by_cases h3 : c = '>'
      · simp [h1, h2, h3]
      · by_cases h4 : c = '"'
        · simp [h1, h2, h3, h4]
        · simp [h1, h2, h3, h4]
          exact fun h => h2 h.symm

theorem escapeHtml_no_lt (t : List Char) : '<' ∉ escapeHtml t := by
  unfold escapeHtml
  intro hmem
  rw [List.mem_flatten] at hmem
  obtain ⟨l, hl, hmem⟩ := hmem
  rw [List.mem_map] at hl
  obtain ⟨c, -, rfl⟩ := hl
  exact escapeHtmlChar_no_lt c hmem

theorem escapeHrefChar_no_lt (c : Char) : '<' ∉ escapeHrefChar c := by
  unfold escapeHrefChar
  by_cases h1 : c = '<'
  · simp [h1]
  · by_cases h2 : c = '>'
    · simp [h1, h2]
    · by_cases h3 : c = '"'
      · simp [h1, h2, h3]
      · by_cases h4 : c = '\''
        · simp [h1, h2, h3, h4]
        · by_cases h5 : c = ' '
          · simp [h1, h2, h3, h4, h5]
          · by_cases h6 : c = '&'
            · simp [h1, h2, h3, h4, h5, h6]
            · simp [h1, h2, h3, h4, h5, h6]
              exact fun h => h1 h.symm

theorem escapeHref_no_lt (t : List Char) : '<' ∉ escapeHref t := by
  unfold escapeHref
  intro hmem
  rw [List.mem_flatten] at hmem
  obtain ⟨l, hl, hmem⟩ := hmem
  rw [List.mem_map] at hl
  obtain ⟨c, -, rfl⟩ := hl
  exact escapeHrefChar_no_lt c hmem

theorem concrete_safe {A : List Char} (h1 : findPat scriptPat A = none)
    {c : Char} (h2 : A.getLast? = some c) (h3 : c ∉ scriptPat.take 7) :
    NoOcc scriptPat A ∧ SPS A :=
  ⟨noOcc_of_findPat h1, sps_of_getLast h2 h3⟩

theorem no_lt_safe {A : List Char} (h : '<' ∉ A) :
    NoOcc scriptPat A ∧ SPS A :=
  ⟨noOcc_of_no_lt h, sps_of_no_lt h⟩

/-- A three-part piece `A ++ m ++ B` with safe flanks is `<script>`-free
and ends safely. -/
theorem wrap3_safe {A m B : List Char}
    (hA : NoOcc scriptPat A) (hAs : SPS A) (hm : NoOcc scriptPat m)
    (hB : NoOcc scriptPat B) (hBf : FrontOk B) (hBne : B ≠ [])
    {c : Char} (hBlast : B.getLast? = some c) (hc : c ∉ scriptPat.take 7) :
    NoOcc scriptPat (A ++ m ++ B) ∧ SPS (A ++ m ++ B) := by
  have h1 : NoOcc scriptPat (A ++ m) := noOcc_append hA hm (Or.inl hAs)
  have h2 : NoOcc scriptPat (A ++ m ++ B) :=
    noOcc_append h1 hB (Or.inr hBf)
  refine ⟨h2, sps_of_getLast ?_ hc⟩
  rw [List.getLast?_append_of_ne_nil _ hBne]
  exact hBlast

/-- The highlighter's wrapped block contains no `<script>` as long as the
language token has no `<` and the generator output has none. -/
theorem highlightBlock_safe {hl : List Char → List Char → List Char}
    {lang c : List Char} (hlang : '<' ∉ lang)
    (hhl : NoOcc scriptPat (hl lang c)) :
    NoOcc scriptPat (highlightBlock hl lang c) ∧
      SPS (highlightBlock hl lang c) := by
  unfold highlightBlock
  have hP1 : NoOcc scriptPat
      "<div class=\"highlight\"><pre><code class=\"language-".toList :=
    noOcc_of_findPat (by decide)
  have hP1s : SPS "<div class=\"highlight\"><pre><code class=\"language-".toList :=
    sps_of_getLast (c := '-') (by decide) (by decide)
  have hL1 : NoOcc scriptPat
      ("<div class=\"highlight\"><pre><code class=\"language-".toList ++ lang) :=
    noOcc_append hP1 (noOcc_of_no_lt hlang) (Or.inl hP1s)
  have hL2 : NoOcc scriptPat
      ("<div class=\"highlight\"><pre><code class=\"language-".toList ++ lang ++
        "\">".toList) :=
    noOcc_append hL1 (noOcc_of_findPat (by decide))
      (Or.inr (frontOk_of_head (c := '"') (by decide) (by decide)))
  have hL2s : SPS
      ("<div class=\"highlight\"><pre><code class=\"language-".toList ++ lang ++
        "\">".toList) := by
    apply sps_of_getLast (c := '>')
    · rw [List.getLast?_append_of_ne_nil _ (by decide)]
      decide
    · decide
  have hL3 : NoOcc scriptPat
      ("<div class=\"highlight\"><pre><code class=\"language-".toList ++ lang ++
        "\">".toList ++ hl lang c) :=
    noOcc_append hL2 hhl (Or.inl hL2s)
  refine ⟨noOcc_append hL3 (noOcc_of_findPat (by decide))
    (Or.inr (frontOk_of_head (c := '<') (by decide) (by decide))), ?_⟩
  apply sps_of_getLast (c := '>')
  · rw [List.getLast?_append_of_ne_nil _ (by decide)]
    decide
  · decide

/-- Every event the loop emits renders to `<script>`-free HTML (given a
registry whose tokens contain no `<` and a highlighter whose output is
`<script>`-free). -/
theorem renderEv_safe {ft : List Char → Bool}
    {hl : List Char → List Char → List Char}
    (hlang : ∀ l, ft l = true → '<' ∉ l)
    (hhl : ∀ l c, NoOcc scriptPat (hl l c)) (e : Ev)
    (hg : GoodEv ft hl e) :
    NoOcc scriptPat (renderEv e) ∧ SPS (renderEv e) := by
  cases e with
  | startPara => exact concrete_safe (by decide) (c := '>') (by decide) (by decide)
  | endPara =>
    exact concrete_safe (by decide) (c := '\n') (by decide) (by decide)
  | startHeading l =>
    cases l <;>
      exact concrete_safe (by decide) (c := '>') (by decide) (by decide)
  | endHeading l =>
    cases l <;>
      exact concrete_safe (by decide) (c := '\n') (by decide) (by decide)
  | startCodeBlock k =>
    rcases k with lang | _
    · by_cases hlnil : lang = []
    -- fenced
      · simp only [renderEv, hlnil, if_pos rfl]
        exact concrete_safe (by decide) (c := '>') (by decide) (by decide)
      · simp only [renderEv, if_neg hlnil]
        exact wrap3_safe (noOcc_of_findPat (by decide))
          (sps_of_getLast (c := '-') (by decide) (by decide))
          (noOcc_of_no_lt (escapeHtml_no_lt lang))
          (noOcc_of_findPat (by decide))
          (frontOk_of_head (c := '"') (by decide) (by decide))
          (by decide) (c := '>') (by decide) (by decide)
    · exact concrete_safe (by decide) (c := '>') (by decide) (by decide)
  | endCodeBlock =>
    exact concrete_safe (by decide) (c := '\n') (by decide) (by decide)
  | startLink dest title =>
    exact wrap3_safe (noOcc_of_findPat (by decide))
      (sps_of_getLast (c := '"') (by decide) (by decide))
      (noOcc_of_no_lt (escapeHref_no_lt dest))
      (noOcc_of_findPat (by decide))
      (frontOk_of_head (c := '"') (by decide) (by decide))
      (by decide) (c := '>') (by decide) (by decide)
  | endLink =>
    exact concrete_safe (by decide) (c := '>') (by decide) (by decide)
  | startImage dest title =>
    exact wrap3_safe (noOcc_of_findPat (by decide))
      (sps_of_getLast (c := '"') (by decide) (by decide))
      (noOcc_of_no_lt (escapeHref_no_lt dest))
      (noOcc_of_findPat (by decide))
      (frontOk_of_head (c := '"') (by decide) (by decide))
      (by decide) (c := '>') (by decide) (by decide)
  | endImage => exact ⟨noOcc_nil, sps_nil⟩
  | text t => exact no_lt_safe (escapeHtml_no_lt t)
  | code t =>
    exact wrap3_safe (noOcc_of_findPat (by decide))
      (sps_of_getLast (c := '>') (by decide) (by decide))
      (noOcc_of_no_lt (escapeHtml_no_lt t))
      (noOcc_of_findPat (by decide))
      (frontOk_of_head (c := '<') (by decide) (by decide))
      (by decide) (c := '>') (by decide) (by decide)
  | html t =>
    obtain ⟨lang, c, rfl, hft⟩ := hg
    exact highlightBlock_safe (hlang lang hft) (hhl lang c)
  | inlineHtml t => exact absurd hg id
  | softBreak => exact no_lt_safe (by decide)
  | hardBreak =>
    exact concrete_safe (by decide) (c := '\n') (by decide) (by decide)
  | rule =>
    exact concrete_safe (by decide) (c := '\n') (by decide) (by decide)

/-- The rendered HTML of a list of safe events is `<script>`-free. -/
theorem pushHtml_noOcc (evs : List Ev)
    (hall : ∀ e ∈ evs, NoOcc scriptPat (renderEv e) ∧ SPS (renderEv e)) :
    NoOcc scriptPat (pushHtml evs) := by
  induction evs with
  | nil => exact noOcc_nil
  | cons e evs' ih =>
    have : pushHtml (e :: evs') = renderEv e ++ pushHtml evs' := by
      simp [pushHtml]
    rw [this]
    exact noOcc_append (hall e (by simp)).1
      (ih (fun e' h => hall e' (by simp [h])))
      (Or.inl (hall e (by simp)).2)

theorem quote_cons_safe {S : List Char} (hS : NoOcc scriptPat S) :
    NoOcc scriptPat ('"' :: S) ∧ FrontOk ('"' :: S) := by
  constructor
  · have : ('"' :: S) = ['"'] ++ S := rfl
    rw [this]
    exact noOcc_append (noOcc_of_findPat (by decide)) hS
      (Or.inl (sps_of_getLast (c := '"') (by decide) (by decide)))
  · exact frontOk_of_head (c := '"') (by simp) (by decide)

theorem patPiece_safe (kind : Bool) :
    NoOcc scriptPat (if kind then hrefPat else srcPat) ∧
      FrontOk (if kind then hrefPat else srcPat) := by
  cases kind
  · exact ⟨noOcc_of_findPat (by decide),
      frontOk_of_two (a := 's') (b := 'r') (by decide) (by decide)
        (by decide) (by decide)⟩
  · exact ⟨noOcc_of_findPat (by decide),
      frontOk_of_head (c := 'h') (by decide) (by decide)⟩

theorem val2_noOcc {t : List Char} (ht : NoOcc scriptPat t)
    (kind : Bool) (j : Nat) :
    NoOcc scriptPat
      (if kind then (if is_safe_href (t.take j) then t.take j else ['#'])
        else (if is_safe_img_src (t.take j) then t.take j else [])) := by
  cases kind
  · rw [if_neg Bool.false_ne_true]
    by_cases hsafe : is_safe_img_src (t.take j)
    · rw [if_pos hsafe]
      exact noOcc_take ht j
    · rw [if_neg hsafe]
      exact noOcc_nil
  · rw [if_pos rfl]
    by_cases hsafe : is_safe_href (t.take j)
    · rw [if_pos hsafe]
      exact noOcc_take ht j
    · rw [if_neg hsafe]
      exact noOcc_of_findPat (by decide)

/-- The sanitizer never introduces the substring `<script>`: its output
pieces are copies of the input, the patterns `href="`/`src="`, `#`, and
quotes, none of which can assemble into `<script>` at a boundary. -/
theorem sanitize_noOcc : ∀ (n : Nat) (s : List Char), s.length ≤ n →
    NoOcc scriptPat s → NoOcc scriptPat (sanitize_generated_html s) := by
  intro n
  induction n with
  | zero =>
    intro s hs h
    have : s = [] := List.length_eq_zero.mp (by omega)
    subst this
    rw [san_none (by decide)]
    exact h
  | succ n ih =>
    intro s hs h
    cases hna : nextAttr s with
    | none =>
      rw [san_none hna]
      exact h
    | some p =>
      obtain ⟨idx, kind⟩ := p
      cases hq : findChar '"'
          (s.drop (idx + (if kind then hrefPat else srcPat).length)) with
      | none =>
        rw [san_noquote hna hq]
        exact h
      | some j =>
        rw [san_quote hna hq]
        simp only []
        have hlen := nextAttr_some_length hna
        have hpat5 := (patLen_bounds kind).1
        have htail : ((s.drop (idx + (if kind then hrefPat else srcPat).length)).drop
            (j + 1)).length ≤ n := by
          rw [List.length_drop, List.length_drop]
          omega
        have hS : NoOcc scriptPat (sanitize_generated_html
            ((s.drop (idx + (if kind then hrefPat else srcPat).length)).drop
              (j + 1))) :=
          ih _ htail (noOcc_drop (noOcc_drop h _) _)
        have hTake : NoOcc scriptPat (s.take idx) := noOcc_take h idx
        have hPat := patPiece_safe kind
        have hL1 : NoOcc scriptPat
            (s.take idx ++ (if kind then hrefPat else srcPat)) :=
          noOcc_append hTake hPat.1 (Or.inr hPat.2)
        have hL1s : SPS (s.take idx ++ (if kind then hrefPat else srcPat)) := by
          apply sps_of_getLast (c := '"')
          · rw [List.getLast?_append_of_ne_nil _ (by cases kind <;> decide)]
            cases kind <;> decide
          · decide
        have hVal2 := val2_noOcc
          (noOcc_drop h (idx + (if kind then hrefPat else srcPat).length))
          kind j
        have hL2 := noOcc_append hL1 hVal2 (Or.inl hL1s)
        have hQS := quote_cons_safe hS
        exact noOcc_append hL2 hQS.1 (Or.inr hQS.2)

/-- C1 (amended): the final pipeline output never contains `<script>`
verbatim — HTML events from the source are dropped, text and URLs are
entity/percent escaped, the highlighter wrapper and writer tags cannot
spell `<script>`, and the sanitizer introduces nothing new. Hypotheses:
registry tokens contain no `<` and highlighter output is `<script>`-free
(true of syntect's class-annotated, entity-escaped output). -/
theorem claim_C1_amended_no_script (ft : List Char → Bool)
    (hl : List Char → List Char → List Char)
    (hlang : ∀ l, ft l = true → '<' ∉ l)
    (hhl : ∀ l c, NoOcc scriptPat (hl l c)) (evs : List Ev)
    (theme : List Char) :
    NoOcc scriptPat (parse_markdown_events ft hl evs theme) := by
  unfold parse_markdown_events
  apply sanitize_noOcc _ _ (Nat.le_refl _)
  apply pushHtml_noOcc
  intro e he
  exact renderEv_safe hlang hhl e
    (foldl_good ft hl evs initPState
      (by intro e' h'; simp [initPState] at h') e he)

/-- Empty registry and highlighter used by the C1 theorems. -/
def c1ft : List Char → Bool := fun _ => false

def c1hl : List Char → List Char → List Char := fun _ _ => []

/-- Witness for the amended C1 at a concrete pipeline instance. -/
theorem claim_C1_amended_no_script_witness :
    NoOcc scriptPat (parse_markdown_events c1ft c1hl
      [.inlineHtml "<script>alert(1)</script>".toList,
       .startPara, .text "onerror=x".toList, .endPara] "light".toList) :=
  claim_C1_amended_no_script c1ft c1hl
    (fun l h => by simp [c1ft] at h)
    (fun _ _ => noOcc_nil)
    [.inlineHtml "<script>alert(1)</script>".toList,
     .startPara, .text "onerror=x".toList, .endPara] "light".toList

/-- C1 as stated is false: the input `onerror=x` contains `onerror=`, and
the full pipeline output `<p>onerror=x</p>` still contains `onerror=`
verbatim — plain-text occurrences of `onerror=`/`javascript:` survive as
(inert, escaped-context) text; only `<script>` and unsafe attribute URLs
are neutralized. -/
theorem claim_C1_counterexample :
    patAt "onerror=".toList "onerror=x".toList 0 ∧
      parse_markdown_with_theme c1ft c1hl "onerror=x".toList
        "light".toList = some "<p>onerror=x</p>\n".toList ∧
      patAt "onerror=".toList "<p>onerror=x</p>\n".toList 3 :=
  ⟨by decide, by decide, by decide⟩

/-! ## Claim C4: `render_file_to_html` document-kind dispatch -/

/-- The file-name component of a path (after the last `/`), as
`Path::file_name`. -/
def fileName (path : List Char) : List Char :=
  (path.reverse.takeWhile (fun c => decide (c ≠ '/'))).reverse

/-- Rust `Path::extension`: the part of the file name after its last `.`,
`none` when there is no `.` or the only `.` is leading (hidden files). -/
def extensionOf (path : List Char) : Option (List Char) :=
  let f := fileName path
  match findChar '.' f.reverse with
  | none => none
  | some k =>
      let i := f.length - 1 - k
      if i = 0 then none else some (f.drop (i + 1))

/-- The lowercased extension with empty default, as computed at the top of
the `spawn_blocking` closure of `render_file_to_html`
(`src-tauri/src/lib.rs`). -/
def lowerExt (path : List Char) : List Char :=
  ((extensionOf path).map rustLower).getD []

/-- `escape_html` from `src-tauri/src/lib.rs`: `& < > " '` are replaced by
their entities, every other character is kept. -/
def escape_html (input : List Char) : List Char :=
  (input.map (fun ch =>
    if ch = '&' then "&amp;".toList
    else if ch = '<' then "&lt;".toList
    else if ch = '>' then "&gt;".toList
    else if ch = '"' then "&quot;".toList
    else if ch = '\'' then "&#039;".toList
    else [ch])).flatten

/-- The fixed plain-text container of `render_file_to_html`'s `txt` arm. -/
def plainTextContainer (content : List Char) : List Char :=
  "<div class=\"markdown-body\"><pre class=\"plain-text\">".toList ++ content ++
    "</pre></div>".toList

/-- The extension dispatch of `render_file_to_html`
(`src-tauri/src/lib.rs`): `txt` is HTML-escaped into the plain-text
container, `json` and `yaml`/`yml` go to the fallible pretty-printing
renderers (passed as the external parameters `jr`/`yr`), and everything
else — `md`, `markdown`, and every unknown extension — defaults to the
Markdown pipeline. File reading and caching are I/O around this pure
dispatch; `content` is the file's text. -/
def render_file_to_html
    (jr yr : List Char → List Char → Option (List Char))
    (ft : List Char → Bool) (hl : List Char → List Char → List Char)
    (path content theme : List Char) : Option (List Char) :=
  let lower := lowerExt path
  if lower = "txt".toList then
    some (plainTextContainer (escape_html content))
  else if lower = "json".toList then jr content theme
  else if lower = "yaml".toList ∨ lower = "yml".toList then yr content theme
  else parse_markdown_with_theme ft hl content theme

/-- JSON/YAML renderer parameters for the C4 theorems (their value is
irrelevant to the dispatch). -/
def c4jr : List Char → List Char → Option (List Char) := fun _ _ => none

def c4ft : List Char → Bool := fun _ => false

def c4hl : List Char → List Char → List Char := fun _ _ => []

/-- C4 as stated is false: for the unrecognized extension `xyz`,
`render_file_to_html` does not HTML-escape the content into the plain-text
container — it renders it as Markdown (`<p>hello</p>`). -/
theorem claim_C4_counterexample :
    render_file_to_html c4jr c4jr c4ft c4hl "file.xyz".toList
        "hello".toList "light".toList = some "<p>hello</p>\n".toList ∧
      render_file_to_html c4jr c4jr c4ft c4hl "file.xyz".toList
        "hello".toList "light".toList ≠
        some (plainTextContainer (escape_html "hello".toList)) :=
  ⟨by decide, by decide⟩

/-- C4 (amended): only `txt` files take the HTML-escaped plain-text path;
every path whose lowercased extension is not `txt`, `json`, `yaml` or
`yml` — including `md`, `markdown` and all unknown extensions — is rendered
through the Markdown pipeline. -/
theorem claim_C4_amended_unknown_ext_is_markdown
    (jr yr : List Char → List Char → Option (List Char))
    (ft : List Char → Bool) (hl : List Char → List Char → List Char)
    (path content theme : List Char)
    (h1 : lowerExt path ≠ "txt".toList) (h2 : lowerExt path ≠ "json".toList)
    (h3 : lowerExt path ≠ "yaml".toList) (h4 : lowerExt path ≠ "yml".toList) :
    render_file_to_html jr yr ft hl path content theme =
      parse_markdown_with_theme ft hl content theme := by
  unfold render_file_to_html
  rw [if_neg h1, if_neg h2, if_neg (not_or.mpr ⟨h3, h4⟩)]

/-- Witness for the amended C4 at the concrete path `file.xyz`. -/
theorem claim_C4_amended_unknown_ext_is_markdown_witness :
    render_file_to_html c4jr c4jr c4ft c4hl "file.xyz".toList
        "hello".toList "light".toList =
      parse_markdown_with_theme c4ft c4hl "hello".toList "light".toList :=
  claim_C4_amended_unknown_ext_is_markdown c4jr c4jr c4ft c4hl
    "file.xyz".toList "hello".toList "light".toList
    (by decide) (by decide) (by decide) (by decide)

/-! ## Claim C6: `get_syntax_theme_css` -/

/-- Association-list lookup, modelling `BTreeMap::get` on the theme
registry (`THEME_SET.themes`). -/
def alookup {β : Type} : List (List Char × β) → List Char → Option β
  | [], _ => none
  | (k, v) :: r, key => if k = key then some v else alookup r key

/-- `get_syntax_theme_css` from `markrust-core/src/lib.rs`, parametrized by
the theme registry contents (`themes`, a static `ThemeSet` in the source)
and the external CSS generator (`cssFor`, syntect's
`css_for_theme_with_class_style`, which writes into a `String` and cannot
fail, so it is modelled total): `dark`/`drac` resolve through the dark
fallback chain, everything else through the light one, then any available
theme (`themes.values().next()`, the first entry). -/
def themePick {Θ : Type} (themes : List (List Char × Θ))
    (theme_name : List Char) : Option Θ :=
  if theme_name = "dark".toList ∨ theme_name = "drac".toList then
    ((alookup themes "Monokai".toList).orElse
      (fun _ => alookup themes "base16-ocean.dark".toList)).orElse
      (fun _ => alookup themes "Solarized (dark)".toList)
  else
    ((alookup themes "InspiredGitHub".toList).orElse
      (fun _ => alookup themes "base16-ocean.light".toList)).orElse
      (fun _ => alookup themes "Solarized (light)".toList)

def get_syntax_theme_css {Θ : Type} (cssFor : Θ → List Char)
    (themes : List (List Char × Θ)) (theme_name : List Char) :
    Option (List Char) :=
  ((themePick themes theme_name).orElse
    (fun _ => themes.head?.map Prod.snd)).map cssFor

/-- C6: `get_syntax_theme_css` returns `none` exactly when the theme
registry is completely empty; with at least one theme present, the ordered
fallback chain always ends at `values().next()` and some CSS is
returned — for every requested name. -/
theorem claim_C6_theme_css_none_iff_empty {Θ : Type} (cssFor : Θ → List Char)
    (themes : List (List Char × Θ)) (theme_name : List Char) :
    get_syntax_theme_css cssFor themes theme_name = none ↔ themes = [] := by
  cases themes with
  | nil =>
    refine ⟨fun _ => rfl, fun _ => ?_⟩
    unfold get_syntax_theme_css themePick
    simp [alookup, Option.orElse]
  | cons e r =>
    refine ⟨fun h => ?_, fun h => by simp at h⟩
    exfalso
    unfold get_syntax_theme_css at h
    cases hp : themePick (e :: r) theme_name <;>
      simp [hp, Option.orElse] at h

/-! ## Claim C7: `invalidate_cache_for_path` -/

/-- The cache key of `src-tauri/src/lib.rs`: path, size, mtime seconds and
theme. -/
structure CacheKey where
  path : List Char
  size : Nat
  mtime_secs : Nat
  theme : List Char
deriving DecidableEq

/-- `lru::LruCache::pop(&k)`: remove the entry with key `k` (keys are
unique in an LRU map; the model removes the first match). -/
def cachePop (c : List (CacheKey × List Char)) (k : CacheKey) :
    List (CacheKey × List Char) :=
  c.eraseP (fun e => e.1 = k)

/-- `invalidate_cache_for_path` from `src-tauri/src/lib.rs`: collect the
keys whose `path` field matches, then pop each. -/
def invalidate_cache_for_path (cache : List (CacheKey × List Char))
    (file_path : List Char) : List (CacheKey × List Char) :=
  (((cache.filter (fun e => decide (e.1.path = file_path))).map
    Prod.fst).foldl (fun c k => cachePop c k) cache)

theorem foldl_pop_cons (p : List Char) (e : CacheKey × List Char)
    (he : ¬ e.1.path = p) :
    ∀ (ks : List CacheKey) (c : List (CacheKey × List Char)),
      (∀ k ∈ ks, k.path = p) →
      ks.foldl (fun c k => cachePop c k) (e :: c) =
        e :: ks.foldl (fun c k => cachePop c k) c := by
  intro ks
  induction ks with
  | nil => intro c _; rfl
  | cons k ks' ih =>
    intro c hks
    have hne : ¬ (e.1 = k) := by
      intro hc
      exact he (by rw [hc]; exact hks k (by simp))
    have hpop : cachePop (e :: c) k = e :: cachePop c k := by
      unfold cachePop
      rw [List.eraseP_cons_of_neg (by simpa using hne)]
    simp only [List.foldl_cons, hpop]
    exact ih (cachePop c k) (fun k' h' => hks k' (by simp [h']))

/-- C7: `invalidate_cache_for_path` removes exactly the entries whose key's
path equals the argument — regardless of their size, mtime, or theme — and
leaves every other entry present, unchanged and in order: the result is the
path-filtered cache, and an entry survives iff its key's path differs. -/
theorem claim_C7_invalidate_path_scoped
    (cache : List (CacheKey × List Char)) (p : List Char) :
    invalidate_cache_for_path cache p =
        cache.filter (fun e => decide (¬ e.1.path = p)) ∧
      ∀ e, e ∈ invalidate_cache_for_path cache p ↔
        e ∈ cache ∧ ¬ e.1.path = p := by
  have main : ∀ c : List (CacheKey × List Char),
      invalidate_cache_for_path c p =
        c.filter (fun e => decide (¬ e.1.path = p)) := by
    intro c
    induction c with
    | nil => rfl
    | cons e c' ih =>
      unfold invalidate_cache_for_path at ih ⊢
      by_cases hp : e.1.path = p
      · rw [List.filter_cons_of_pos (by simpa using hp), List.map_cons,
          List.foldl_cons]
        have hpop : cachePop (e :: c') e.1 = c' := by
          unfold cachePop
          rw [List.eraseP_cons_of_pos (by simp)]
        rw [hpop, List.filter_cons_of_neg (by simpa using hp)]
        exact ih
      · have hkeys : ∀ k ∈ ((c'.filter
            (fun e => decide (e.1.path = p))).map Prod.fst), k.path = p := by
          intro k hk
          rw [List.mem_map] at hk
          obtain ⟨x, hx, rfl⟩ := hk
          rw [List.mem_filter] at hx
          exact of_decide_eq_true hx.2
        rw [List.filter_cons_of_neg (by simpa using hp),
          List.filter_cons_of_pos (by simpa using hp),
          foldl_pop_cons p e hp _ c' hkeys]
        exact congrArg (e :: ·) ih
  refine ⟨main cache, ?_⟩
  intro e
  rw [main cache, List.mem_filter]
  simp

/-! ## Claims C8 and C9: the file-watch multiplexer

Sequential semantics of `start_file_watcher`/`stop_file_watcher`
(`src-tauri/src/lib.rs`). The four maps of `FileWatchers` are modelled as
the sets of paths they hold (watcher/sender/task handles are opaque);
HashMaps become association lists. OS-watch installation (watcher creation
plus the `watch` call) is the external effect `osOk`; both source error
paths return before any insertion into the three maps. -/

/-- The per-path state of `FileWatchers`: paths holding an OS watcher, a
sender, a debounce task, and the subscription lists (path → window
labels). -/
structure WatchSt where
  watchers : List (List Char)
  senders : List (List Char)
  debounce : List (List Char)
  subs : List (List Char × List (List Char))
deriving DecidableEq

/-- `subs.entry(file_path).or_default(); if !entry.contains(w) { push }`. -/
def subsAdd (subs : List (List Char × List (List Char)))
    (path win : List Char) : List (List Char × List (List Char)) :=
  match subs with
  | [] => [(path, [win])]
  | (k, ls) :: r =>
      if k = path then (k, if win ∈ ls then ls else ls ++ [win]) :: r
      else (k, ls) :: subsAdd r path win

/-- `start_file_watcher`: register the subscription, then — only when no
watcher exists for the path — create and install the OS watch; on failure
(`osOk = false`) return the error with no map insertions; on success
insert into the watcher, sender and debounce-task maps. Returns the state
and `true` for `Ok`. -/
def start_file_watcher (st : WatchSt) (file_path window_label : List Char)
    (osOk : Bool) : WatchSt × Bool :=
  let st1 := { st with subs := subsAdd st.subs file_path window_label }
  if file_path ∈ st1.watchers then (st1, true)
  else if osOk then
    ({ st1 with
        watchers := st1.watchers ++ [file_path]
        senders := st1.senders ++ [file_path]
        debounce := st1.debounce ++ [file_path] }, true)
  else (st1, false)

/-- The `subs` map after `labels.retain(|l| l != &window_label)` in
`stop_file_watcher`. -/
def subsRetain (st : WatchSt) (window_label : List Char) :
    List (List Char × List (List Char)) :=
  st.subs.map (fun e => (e.1, e.2.filter (fun l => decide (l ≠ window_label))))

/-- `to_remove` in `stop_file_watcher`: the paths whose subscription list
became empty. -/
def toRemove (st : WatchSt) (window_label : List Char) : List (List Char) :=
  ((subsRetain st window_label).filter (fun e => decide (e.2 = []))).map
    Prod.fst

/-- `stop_file_watcher`: drop the window from every subscription list,
remove emptied lists, and tear down watcher, sender and debounce task for
every path whose list became empty. -/
def stop_file_watcher (st : WatchSt) (window_label : List Char) : WatchSt :=
  { watchers := st.watchers.filter
      (fun f => decide (f ∉ toRemove st window_label))
    senders := st.senders.filter
      (fun f => decide (f ∉ toRemove st window_label))
    debounce := st.debounce.filter
      (fun f => decide (f ∉ toRemove st window_label))
    subs := (subsRetain st window_label).filter
      (fun e => decide (e.2 ≠ [])) }

/-- After registration, the path's subscription list exists and contains
the window. -/
theorem subsAdd_lookup (subs : List (List Char × List (List Char)))
    (path win : List Char) :
    ∃ ls, alookup (subsAdd subs path win) path = some ls ∧ win ∈ ls := by
  induction subs with
  | nil => exact ⟨[win], by simp [subsAdd, alookup], by simp⟩
  | cons e r ih =>
    obtain ⟨k, ls⟩ := e
    by_cases hk : k = path
    · refine ⟨if win ∈ ls then ls else ls ++ [win], ?_, ?_⟩
      · simp [subsAdd, hk, alookup]
      · split <;> simp_all
    · obtain ⟨ls', h1, h2⟩ := ih
      exact ⟨ls', by simp [subsAdd, hk, alookup, h1], h2⟩

/-- C8 as stated is false: when installing the OS watch fails, the
already-registered subscription is not rolled back — starting from the
empty state, the failed call leaves `subs` with an entry for the path. -/
theorem claim_C8_counterexample :
    (start_file_watcher ⟨[], [], [], []⟩ "p".toList "w".toList false).2 =
        false ∧
      alookup (start_file_watcher ⟨[], [], [], []⟩ "p".toList "w".toList
        false).1.subs "p".toList = some ["w".toList] :=
  ⟨by decide, by decide⟩

/-- C8 (amended): when installing the OS watch fails (possible only when
the path has no watcher yet), the error is returned synchronously and the
watcher, sender and debounce-task maps are left exactly as they were —
hence still without an entry for the path — but the subscriber map retains
the just-registered subscription. -/
theorem claim_C8_amended_failed_watch_leaves_subscription
    (st : WatchSt) (path win : List Char) (hno : path ∉ st.watchers) :
    (start_file_watcher st path win false).2 = false ∧
      (start_file_watcher st path win false).1.watchers = st.watchers ∧
      (start_file_watcher st path win false).1.senders = st.senders ∧
      (start_file_watcher st path win false).1.debounce = st.debounce ∧
      ∃ ls, alookup (start_file_watcher st path win false).1.subs path =
        some ls ∧ win ∈ ls := by
  unfold start_file_watcher
  rw [if_neg (by simpa using hno), if_neg (by simp)]
  exact ⟨rfl, rfl, rfl, rfl, subsAdd_lookup st.subs path win⟩

/-- Witness for the amended C8 at the empty state. -/
theorem claim_C8_amended_failed_watch_leaves_subscription_witness :
    (start_file_watcher ⟨[], [], [], []⟩ "p".toList "w".toList false).2 =
        false ∧
      (start_file_watcher ⟨[], [], [], []⟩ "p".toList "w".toList
        false).1.watchers = [] ∧
      (start_file_watcher ⟨[], [], [], []⟩ "p".toList "w".toList
        false).1.senders = [] ∧
      (start_file_watcher ⟨[], [], [], []⟩ "p".toList "w".toList
        false).1.debounce = [] ∧
      ∃ ls, alookup (start_file_watcher ⟨[], [], [], []⟩ "p".toList
        "w".toList false).1.subs "p".toList = some ls ∧ "w".toList ∈ ls :=
  claim_C8_amended_failed_watch_leaves_subscription ⟨[], [], [], []⟩
    "p".toList "w".toList (by decide)

/-! ### Association-list lemmas for the subscription map -/

theorem alookup_eq_none_iff {β : Type} (l : List (List Char × β))
    (k : List Char) : alookup l k = none ↔ k ∉ l.map Prod.fst := by
  induction l with
  | nil => exact ⟨fun _ => by simp, fun _ => rfl⟩
  | cons e r ih =>
    obtain ⟨k', v⟩ := e
    by_cases hk : k' = k
    · subst hk
      simp only [alookup, if_pos rfl, List.map_cons]
      constructor
      · intro h
        exact Option.noConfusion h
      · intro h
        exact absurd (List.mem_cons_self _ _) h
    · simp only [alookup, if_neg hk, List.map_cons, List.mem_cons]
      rw [ih]
      constructor
      · intro h hc
        rcases hc with hc | hc
        · exact hk hc.symm
        · exact h hc
      · intro h hc
        exact h (Or.inr hc)

theorem alookup_some_mem_keys {β : Type} {l : List (List Char × β)}
    {k : List Char} {v : β} (h : alookup l k = some v) :
    k ∈ l.map Prod.fst := by
  by_contra hmem
  rw [← alookup_eq_none_iff] at hmem
  rw [hmem] at h
  exact Option.noConfusion h

theorem alookup_map_values {β γ : Type} (l : List (List Char × β))
    (g : β → γ) (k : List Char) :
    alookup (l.map (fun e => (e.1, g e.2))) k = (alookup l k).map g := by
  induction l with
  | nil => rfl
  | cons e r ih =>
    obtain ⟨k', v⟩ := e
    by_cases hk : k' = k
    · simp [alookup, hk]
    · simp [alookup, hk, ih]

theorem alookup_filter_none {β : Type} {l : List (List Char × β)}
    {k : List Char} (f : List Char × β → Bool)
    (h : alookup l k = none) : alookup (l.filter f) k = none := by
  induction l with
  | nil => rfl
  | cons e r ih =>
    obtain ⟨k', v⟩ := e
    by_cases hk : k' = k
    · simp [alookup, hk] at h
    · simp only [alookup, if_neg hk] at h
      rw [List.filter_cons]
      split
      · simp only [alookup, if_neg hk]
        exact ih h
      · exact ih h

theorem alookup_filter_values {β : Type} {l : List (List Char × β)}
    (hnd : (l.map Prod.fst).Nodup) (g : β → Bool) {k : List Char} {v : β} :
    alookup (l.filter (fun e => g e.2)) k = some v ↔
      alookup l k = some v ∧ g v = true := by
  induction l with
  | nil => simp [alookup]
  | cons e r ih =>
    obtain ⟨k', v'⟩ := e
    rw [List.map_cons, List.nodup_cons] at hnd
    by_cases hk : k' = k
    · subst hk
      rw [List.filter_cons]
      by_cases hg : g v' = true
      · rw [if_pos hg]
        simp only [alookup, if_pos rfl]
        constructor
        · intro hv
          have hv' : v' = v := by simpa using hv
          subst hv'
          exact ⟨rfl, hg⟩
        · intro ⟨h1, _⟩
          simpa using h1
      · rw [if_neg hg]
        have hnone : alookup r k' = none := by
          rw [alookup_eq_none_iff]
          exact hnd.1
        rw [alookup_filter_none _ hnone]
        simp only [alookup, if_pos rfl]
        constructor
        · intro hv
          exact Option.noConfusion hv
        · intro ⟨h1, h2⟩
          have hv' : v' = v := by simpa using h1
          subst hv'
          exact absurd h2 hg
    · rw [List.filter_cons]
      have hstep : alookup ((k', v') :: r) k = alookup r k := by
        simp [alookup, hk]
      split
      · rw [hstep]
        simp only [alookup, if_neg hk]
        exact ih hnd.2
      · rw [hstep]
        exact ih hnd.2

theorem mem_keys_filter {β : Type} {l : List (List Char × β)}
    (hnd : (l.map Prod.fst).Nodup) (g : β → Bool) (q : List Char) :
    q ∈ (l.filter (fun e => g e.2)).map Prod.fst ↔
      ∃ v, alookup l q = some v ∧ g v = true := by
  constructor
  · intro h
    cases hq : alookup (l.filter (fun e => g e.2)) q with
    | none =>
      rw [alookup_eq_none_iff] at hq
      exact absurd h hq
    | some v =>
      rw [alookup_filter_values hnd g] at hq
      exact ⟨v, hq⟩
  · intro ⟨v, h1, h2⟩
    apply alookup_some_mem_keys (v := v)
    rw [alookup_filter_values hnd g]
    exact ⟨h1, h2⟩

theorem subsAdd_keys (subs : List (List Char × List (List Char)))
    (path win : List Char) :
    (subsAdd subs path win).map Prod.fst =
      if path ∈ subs.map Prod.fst then subs.map Prod.fst
      else subs.map Prod.fst ++ [path] := by
  induction subs with
  | nil => simp [subsAdd]
  | cons e r ih =>
    obtain ⟨k, ls⟩ := e
    by_cases hk : k = path
    · subst hk
      simp [subsAdd]
    · have hne : ¬ path = k := fun h => hk h.symm
      simp only [subsAdd, if_neg hk, List.map_cons, List.mem_cons, ih]
      by_cases hmem : path ∈ r.map Prod.fst
      · rw [if_pos hmem, if_pos (Or.inr hmem)]
      · rw [if_neg hmem, if_neg (by simp [hne, hmem]), List.cons_append]

theorem subsAdd_lookup_other (subs : List (List Char × List (List Char)))
    (path win q : List Char) (hq : q ≠ path) :
    alookup (subsAdd subs path win) q = alookup subs q := by
  have hpq : ¬ path = q := fun h => hq h.symm
  induction subs with
  | nil => simp [subsAdd, alookup, hpq]
  | cons e r ih =>
    obtain ⟨k, ls⟩ := e
    by_cases hk : k = path
    · subst hk
      simp [subsAdd, alookup, hpq]
    · by_cases hkq : k = q
      · simp [subsAdd, hk, alookup, hkq, hq]
      · simp [subsAdd, hk, alookup, hkq, ih]

theorem subsAdd_nonempty {subs : List (List Char × List (List Char))}
    (h : ∀ e ∈ subs, e.2 ≠ []) (path win : List Char) :
    ∀ e ∈ subsAdd subs path win, e.2 ≠ [] := by
  induction subs with
  | nil =>
    intro e he
    simp [subsAdd] at he
    subst he
    simp
  | cons x r ih =>
    obtain ⟨k, ls⟩ := x
    intro e he
    by_cases hk : k = path
    · simp only [subsAdd, if_pos hk, List.mem_cons] at he
      rcases he with he | he
      · subst he
        by_cases hw : win ∈ ls
        · simpa [hw] using h (k, ls) (by simp)
        · simp [hw]
      · exact h e (by simp [he])
    · simp only [subsAdd, if_neg hk, List.mem_cons] at he
      rcases he with he | he
      · subst he
        exact h (k, ls) (by simp)
      · exact ih (fun e' h' => h e' (by simp [h'])) e he

/-! ### The watch-lifecycle invariant -/

/-- Invariant of the watch multiplexer state: at most one OS watch per
path, the sender and debounce-task maps in lockstep with the watcher map,
unique subscription keys, no empty subscription lists, and a watcher
present exactly for the subscribed paths. -/
def WatchInv (st : WatchSt) : Prop :=
  st.watchers.Nodup ∧
  st.senders = st.watchers ∧
  st.debounce = st.watchers ∧
  (st.subs.map Prod.fst).Nodup ∧
  (∀ e ∈ st.subs, e.2 ≠ []) ∧
  (∀ p, p ∈ st.watchers ↔ ∃ ls, alookup st.subs p = some ls)

theorem watchInv_start (st : WatchSt) (p w : List Char) (h : WatchInv st) :
    WatchInv (start_file_watcher st p w true).1 := by
  obtain ⟨hnd, hsend, hdeb, hknd, hne, hiff⟩ := h
  unfold start_file_watcher
  by_cases hmem : p ∈ st.watchers
  · rw [if_pos (by simpa using hmem)]
    refine ⟨hnd, hsend, hdeb, ?_, subsAdd_nonempty hne p w, ?_⟩
    · rw [subsAdd_keys]
      have hpk : p ∈ st.subs.map Prod.fst := by
        obtain ⟨ls, hls⟩ := (hiff p).mp hmem
        exact alookup_some_mem_keys hls
      rw [if_pos hpk]
      exact hknd
    · intro q
      by_cases hq : q = p
      · subst hq
        simp only [hmem, true_iff]
        obtain ⟨ls, h1, -⟩ := subsAdd_lookup st.subs q w
        exact ⟨ls, h1⟩
      · rw [subsAdd_lookup_other st.subs p w q hq]
        exact hiff q
  · rw [if_neg (by simpa using hmem), if_pos rfl]
    have hpk : p ∉ st.subs.map Prod.fst := by
      intro hk
      cases hl : alookup st.subs p with
      | none =>
        rw [alookup_eq_none_iff] at hl
        exact hl hk
      | some ls => exact hmem ((hiff p).mpr ⟨ls, hl⟩)
    refine ⟨?_, ?_, ?_, ?_, subsAdd_nonempty hne p w, ?_⟩
    · simp [List.nodup_append, hnd, hmem]
    · rw [hsend]
    · rw [hdeb]
    · rw [subsAdd_keys, if_neg hpk]
      simp [List.nodup_append, hknd, hpk]
    · intro q
      by_cases hq : q = p
      · subst hq
        obtain ⟨ls, h1, -⟩ := subsAdd_lookup st.subs q w
        exact ⟨fun _ => ⟨ls, h1⟩, fun _ => by simp⟩
      · rw [subsAdd_lookup_other st.subs p w q hq]
        have : q ∈ st.watchers ++ [p] ↔ q ∈ st.watchers := by
          simp [hq]
        rw [this]
        exact hiff q

theorem watchInv_stop (st : WatchSt) (w : List Char) (h : WatchInv st) :
    WatchInv (stop_file_watcher st w) := by
  obtain ⟨hnd, hsend, hdeb, hknd, hne, hiff⟩ := h
  have hknd1 : ((subsRetain st w).map Prod.fst).Nodup := by
    have : (subsRetain st w).map Prod.fst = st.subs.map Prod.fst := by
      unfold subsRetain
      rw [List.map_map]
      rfl
    rw [this]
    exact hknd
  refine ⟨List.Nodup.filter _ hnd,
    by unfold stop_file_watcher; rw [hsend],
    by unfold stop_file_watcher; rw [hdeb], ?_, ?_, ?_⟩
  · show (((subsRetain st w).filter
        (fun e => decide (e.2 ≠ []))).map Prod.fst).Nodup
    exact List.Nodup.sublist
      (List.Sublist.map Prod.fst (List.filter_sublist _)) hknd1
  · intro e he
    have he' : e ∈ (subsRetain st w).filter (fun e => decide (e.2 ≠ [])) := he
    rw [List.mem_filter] at he'
    exact of_decide_eq_true he'.2
  · intro q
    show q ∈ st.watchers.filter (fun f => decide (f ∉ toRemove st w)) ↔
      ∃ ls, alookup ((subsRetain st w).filter
        (fun e => decide (e.2 ≠ []))) q = some ls
    rw [List.mem_filter]
    cases hl : alookup st.subs q with
    | none =>
      have h1 : alookup (subsRetain st w) q = none := by
        unfold subsRetain
        rw [alookup_map_values, hl]
        rfl
      constructor
      · rintro ⟨hw, -⟩
        exact absurd ((hiff q).mp hw) (by simp [hl])
      · rintro ⟨ls, hls⟩
        have hc := (alookup_filter_values hknd1
          (fun v => decide (v ≠ []))).mp hls
        rw [h1] at hc
        exact Option.noConfusion hc.1
    | some ls =>
      have h1 : alookup (subsRetain st w) q =
          some (ls.filter (fun l => decide (l ≠ w))) := by
        unfold subsRetain
        rw [alookup_map_values, hl]
        rfl
      have hq : q ∈ st.watchers := (hiff q).mpr ⟨ls, hl⟩
      have hrem : q ∈ toRemove st w ↔
          ls.filter (fun l => decide (l ≠ w)) = [] := by
        unfold toRemove
        refine Iff.trans (mem_keys_filter hknd1 (fun v => decide (v = [])) q) ?_
        constructor
        · rintro ⟨v, hv1, hv2⟩
          rw [h1] at hv1
          have hvv : ls.filter (fun l => decide (l ≠ w)) = v := by
            simpa using hv1
          rw [hvv]
          exact of_decide_eq_true hv2
        · intro hv
          exact ⟨ls.filter (fun l => decide (l ≠ w)), h1, by rw [hv]; rfl⟩
      constructor
      · rintro ⟨-, hdec⟩
        have hnrem := of_decide_eq_true hdec
        rw [hrem] at hnrem
        refine ⟨ls.filter (fun l => decide (l ≠ w)), ?_⟩
        exact (alookup_filter_values hknd1 (fun v => decide (v ≠ []))).mpr
          ⟨h1, by simpa using hnrem⟩
      · rintro ⟨ls2, hls2⟩
        have hc := (alookup_filter_values hknd1
          (fun v => decide (v ≠ []))).mp hls2
        rw [h1] at hc
        refine ⟨hq, decide_eq_true ?_⟩
        rw [hrem]
        have hval : ls.filter (fun l => decide (l ≠ w)) = ls2 := by
          simpa using hc.1
        rw [hval]
        exact of_decide_eq_true hc.2

/-- An operation on the watch multiplexer: a successful
`start_file_watcher` call or a `stop_file_watcher` call. -/
inductive WOp
  | start (path win : List Char)
  | stop (win : List Char)

def wstep (st : WatchSt) : WOp → WatchSt
  | .start p w => (start_file_watcher st p w true).1
  | .stop w => stop_file_watcher st w

/-- The state after a sequence of successful watcher calls from the empty
initial state. -/
def wrun (ops : List WOp) : WatchSt := ops.foldl wstep ⟨[], [], [], []⟩

theorem watchInv_init : WatchInv ⟨[], [], [], []⟩ := by
  refine ⟨List.nodup_nil, rfl, rfl, List.nodup_nil, ?_, ?_⟩
  · intro e he
    exact absurd he (List.not_mem_nil e)
  · intro p
    simp [alookup]

theorem watchInv_wrun (ops : List WOp) : WatchInv (wrun ops) := by
  unfold wrun
  have : ∀ st, WatchInv st → WatchInv (ops.foldl wstep st) := by
    induction ops with
    | nil => exact fun st h => h
    | cons op ops' ih =>
      intro st h
      apply ih
      cases op with
      | start p w => exact watchInv_start st p w h
      | stop w => exact watchInv_stop st w h
  exact this _ watchInv_init

/-- A successful start installs exactly one watcher when none exists and
none when one does. -/
theorem start_watchers_eq (st : WatchSt) (p w : List Char) :
    (start_file_watcher st p w true).1.watchers =
      (if p ∈ st.watchers then st.watchers else st.watchers ++ [p]) := by
  unfold start_file_watcher
  by_cases hmem : p ∈ st.watchers
  · rw [if_pos (by simpa using hmem), if_pos hmem]
  · rw [if_neg (by simpa using hmem), if_pos rfl, if_neg hmem]

/-- C9: after any sequence of successful `start_file_watcher` /
`stop_file_watcher` calls, each path has at most one OS watch (the watcher
set is duplicate-free), the sender and debounce-task maps hold exactly the
watched paths, a watcher exists for a path exactly while its subscriber
list is nonempty (so the first subscriber creates it and the teardown
happens exactly when the last subscriber leaves), and a further start call
installs a new watcher exactly when the path has none. -/
theorem claim_C9_watch_lifecycle (ops : List WOp) (p w : List Char) :
    (wrun ops).watchers.Nodup ∧
      (wrun ops).senders = (wrun ops).watchers ∧
      (wrun ops).debounce = (wrun ops).watchers ∧
      (∀ q, q ∈ (wrun ops).watchers ↔
        ∃ ls, alookup (wrun ops).subs q = some ls) ∧
      ((start_file_watcher (wrun ops) p w true).1.watchers =
        if p ∈ (wrun ops).watchers then (wrun ops).watchers
        else (wrun ops).watchers ++ [p]) := by
  obtain ⟨h1, h2, h3, -, -, h6⟩ := watchInv_wrun ops
  exact ⟨h1, h2, h3, h6, start_watchers_eq _ p w⟩

/-- Witness for C9 at a concrete call sequence: two subscribers on one
path, then one unsubscribes, then the other. -/
theorem claim_C9_watch_lifecycle_witness :
    (wrun [.start "p".toList "a".toList, .start "p".toList "b".toList,
        .stop "a".toList]).watchers.Nodup ∧
      (wrun [.start "p".toList "a".toList, .start "p".toList "b".toList,
        .stop "a".toList]).senders =
        (wrun [.start "p".toList "a".toList, .start "p".toList "b".toList,
          .stop "a".toList]).watchers ∧
      (wrun [.start "p".toList "a".toList, .start "p".toList "b".toList,
        .stop "a".toList]).debounce =
        (wrun [.start "p".toList "a".toList, .start "p".toList "b".toList,
          .stop "a".toList]).watchers ∧
      (∀ q, q ∈ (wrun [.start "p".toList "a".toList,
          .start "p".toList "b".toList, .stop "a".toList]).watchers ↔
        ∃ ls, alookup (wrun [.start "p".toList "a".toList,
          .start "p".toList "b".toList, .stop "a".toList]).subs q = some ls) ∧
      ((start_file_watcher (wrun [.start "p".toList "a".toList,
          .start "p".toList "b".toList, .stop "a".toList]) "p".toList
          "c".toList true).1.watchers =
        if "p".toList ∈ (wrun [.start "p".toList "a".toList,
            .start "p".toList "b".toList, .stop "a".toList]).watchers then
          (wrun [.start "p".toList "a".toList, .start "p".toList "b".toList,
            .stop "a".toList]).watchers
        else (wrun [.start "p".toList "a".toList,
          .start "p".toList "b".toList, .stop "a".toList]).watchers ++
          ["p".toList]) :=
  claim_C9_watch_lifecycle
    [.start "p".toList "a".toList, .start "p".toList "b".toList,
      .stop "a".toList] "p".toList "c".toList

end BoltPage
